import Mathlib

/-!
Shallow embedding of the fuzzy-logic inference engine in `fuzzy_logic.py`.

Degrees are modelled as rational numbers (`ℚ`), numpy 1-D arrays as `List ℚ`.
Numpy's elementwise binary operations with broadcasting are modelled by
`npBroadcast2`: equal-length arrays combine pointwise, a length-1 array
broadcasts against the other operand, and any other length mismatch raises
(`Except.error`).  Python exceptions are modelled by the `Except Err` monad.
A floating-point NaN produced by the unguarded `0/0` centroid division is
modelled by `Option.none` in the result of `predict` (the aggregate curve is
pointwise nonnegative, so its sum is zero exactly when every entry — and hence
the numerator — is zero, which is the exact situation in which numpy returns
NaN).
-/

namespace FuzzyPy

set_option maxRecDepth 40000

/-- numpy 1-D degree array. -/
abbrev Degrees := List ℚ

/-- Python exceptions raised by the engine (`ValueError`s and numpy errors). -/
inductive Err where
  /-- `Missing variable values in arguments: {missing}` -/
  | missingVariables (names : List String)
  /-- `No membership functions defined.` -/
  | noMembershipFunctions
  /-- `Membership function for '{category}' already defined.` -/
  | duplicateCategory (category : String)
  /-- `Category '{category}' not defined for variable '{name}'.` -/
  | unknownCategory (category : String) (varName : String)
  /-- numpy: operands could not be broadcast together -/
  | broadcastMismatch
  /-- Python `max()` over an empty sequence -/
  | emptySequence
  /-- numpy: truth value of a multi-element array is ambiguous -/
  | ambiguousTruth
deriving DecidableEq, Repr

/-- Python `dict` lookup on an insertion-ordered association list. -/
def dictGet {α : Type} (l : List (String × α)) (k : String) : Option α :=
  (l.find? (fun p => p.1 = k)).map Prod.snd

/-- Python `k in dict`. -/
def dictHas {α : Type} (l : List (String × α)) (k : String) : Bool :=
  l.any (fun p => p.1 = k)

/-- Python `dict[k] = v`: update in place keeping insertion position when the
key is present, append otherwise. -/
def dictSet {α : Type} (l : List (String × α)) (k : String) (v : α) :
    List (String × α) :=
  if dictHas l k then l.map (fun p => if p.1 = k then (k, v) else p)
  else l ++ [(k, v)]

/-- numpy elementwise binary operation on 1-D arrays with broadcasting:
equal lengths combine pointwise, a length-1 operand is broadcast, anything
else raises. -/
def npBroadcast2 (f : ℚ → ℚ → ℚ) (a b : Degrees) : Except Err Degrees :=
  if a.length = b.length then .ok (List.zipWith f a b)
  else if a.length = 1 then .ok (b.map (f (a.headD 0)))
  else if b.length = 1 then .ok (a.map (fun x => f x (b.headD 0)))
  else .error .broadcastMismatch

/-- `class FuzzyValue`: wraps a numpy array of membership degrees. -/
structure FuzzyValue where
  degree : Degrees
deriving DecidableEq, Repr

/-- `FuzzyValue()` — the default `np.array([0])`. -/
def FuzzyValue.default : FuzzyValue := ⟨[0]⟩

/-- `FuzzyValue.__and__`: `np.minimum(self.degree, other.degree)`. -/
def FuzzyValue.and (a b : FuzzyValue) : Except Err FuzzyValue :=
  (npBroadcast2 min a.degree b.degree).map FuzzyValue.mk

/-- `FuzzyValue.__or__`: `np.maximum(self.degree, other.degree)`. -/
def FuzzyValue.or (a b : FuzzyValue) : Except Err FuzzyValue :=
  (npBroadcast2 max a.degree b.degree).map FuzzyValue.mk

/-- `FuzzyValue.__invert__`: `1 - self.degree`. -/
def FuzzyValue.invert (a : FuzzyValue) : FuzzyValue :=
  ⟨a.degree.map (fun d => 1 - d)⟩

/-- A registered membership function: called by `fuzzify` on the
`np.atleast_1d` form of the crisp value, so it consumes a `Degrees` array. -/
abbrev MembershipFunction := Degrees → FuzzyValue

/-- `class FuzzyVariable`: name, bounds, ordered dict of membership
functions and ordered dict of (possibly default) fuzzy values. -/
structure FuzzyVariable where
  name : String
  min_val : ℚ
  max_val : ℚ
  membership_functions : List (String × MembershipFunction)
  fuzzy_values : List (String × FuzzyValue)

/-- `FuzzyVariable.__init__` / `FuzzyVariable.create`. -/
def FuzzyVariable.create (name : String) (min_val max_val : ℚ) : FuzzyVariable :=
  ⟨name, min_val, max_val, [], []⟩

/-- `FuzzyVariable.categories` property. -/
def FuzzyVariable.categories (v : FuzzyVariable) : List String :=
  v.membership_functions.map Prod.fst

/-- `FuzzyVariable.clone`: same membership functions, each fuzzy value reset
to the default `FuzzyValue()`. -/
def FuzzyVariable.clone (v : FuzzyVariable) : FuzzyVariable :=
  { v with fuzzy_values :=
      v.membership_functions.map (fun p => (p.1, FuzzyValue.default)) }

/-- `FuzzyVariable.fuzzify`: error when no membership functions are defined,
otherwise evaluate every membership function at the sample array. -/
def FuzzyVariable.fuzzify (v : FuzzyVariable) (xs : Degrees) :
    Except Err FuzzyVariable :=
  if v.membership_functions.isEmpty then .error .noMembershipFunctions
  else .ok { v.clone with fuzzy_values :=
      v.membership_functions.map (fun p => (p.1, p.2 xs)) }

/-- `FuzzyVariable.is_`: the fuzzy value registered for a category, error if
the category is not a key of `_fuzzy_values`. -/
def FuzzyVariable.is_ (v : FuzzyVariable) (category : String) :
    Except Err FuzzyValue :=
  match dictGet v.fuzzy_values category with
  | some fv => .ok fv
  | none => .error (.unknownCategory category v.name)

/-- `FuzzyVariable.is_not`. -/
def FuzzyVariable.is_not (v : FuzzyVariable) (category : String) :
    Except Err FuzzyValue :=
  (v.is_ category).map FuzzyValue.invert

/-- `FuzzyVariable.__setitem__`. -/
def FuzzyVariable.setItem (v : FuzzyVariable) (category : String)
    (value : FuzzyValue) : FuzzyVariable :=
  { v with fuzzy_values := dictSet v.fuzzy_values category value }

/-- numpy truthiness of `a.degree > b.degree` as used by Python's `max` with
an array-valued key: two length-1 arrays compare their single entries; any
multi-element comparison result has an ambiguous truth value; incompatible
shapes fail to broadcast. -/
def npGreater (a b : FuzzyValue) : Except Err Bool :=
  if a.degree.length = 1 ∧ b.degree.length = 1 then
    .ok (decide (b.degree.headD 0 < a.degree.headD 0))
  else if a.degree.length = b.degree.length ∨ a.degree.length = 1 ∨
      b.degree.length = 1 then
    .error .ambiguousTruth
  else .error .broadcastMismatch

/-- `FuzzyVariable.get_max_membership_category`: Python `max` over the dict
keys with the degree array as key — first maximal entry wins. -/
def FuzzyVariable.get_max_membership_category (v : FuzzyVariable) :
    Except Err String :=
  match v.fuzzy_values with
  | [] => .error .emptySequence
  | p :: rest =>
      (rest.foldlM (fun (best q : String × FuzzyValue) => do
        let g ← npGreater q.2 best.2
        pure (if g then q else best)) p).map Prod.fst

/-- `FuzzyVariable.add_membership_function`: duplicate categories are
rejected; the category's fuzzy value is pre-initialised to `FuzzyValue()`. -/
def FuzzyVariable.add_membership_function (v : FuzzyVariable)
    (category : String) (func : MembershipFunction) : Except Err FuzzyVariable :=
  if dictHas v.membership_functions category then
    .error (.duplicateCategory category)
  else .ok { v with
    fuzzy_values := dictSet v.fuzzy_values category FuzzyValue.default,
    membership_functions := dictSet v.membership_functions category func }

/-- The closure built by `add_triangular_membership_function`:
`result = np.zeros_like(x)`, then, when `a != b`, overwrite where
`a <= x <= b` with `(x-a)/(b-a)`, then, when `b != c`, overwrite where
`b <= x <= c` with `(c-x)/(c-b)`. -/
def triangularFunction (a b c : ℚ) : MembershipFunction := fun xs =>
  ⟨xs.map (fun x =>
    let r1 : ℚ := if a ≠ b ∧ a ≤ x ∧ x ≤ b then (x - a) / (b - a) else 0
    if b ≠ c ∧ b ≤ x ∧ x ≤ c then (c - x) / (c - b) else r1)⟩

/-- `FuzzyVariable.add_triangular_membership_function`. -/
def FuzzyVariable.add_triangular_membership_function (v : FuzzyVariable)
    (category : String) (a b c : ℚ) : Except Err FuzzyVariable :=
  v.add_membership_function category (triangularFunction a b c)

/-- A rule callable: consumes the dict of fuzzified input variables and
returns `(output category, fuzzy value)`. -/
abbrev RuleFn := List (String × FuzzyVariable) → String × FuzzyValue

/-- `class FuzzyLogic`. -/
structure FuzzyLogic where
  inputs : List FuzzyVariable
  output : FuzzyVariable
  rules : List RuleFn

/-- The set `{var.name for var in self.inputs if var.name not in crisp_values}`
of declared input names without a supplied crisp value (the Python set is
rendered as a deduplicated list in declaration order). -/
def FuzzyLogic.missingInputs (fl : FuzzyLogic)
    (crisp_values : List (String × ℚ)) : List String :=
  ((fl.inputs.map FuzzyVariable.name).filter
    (fun n => ¬ dictHas crisp_values n)).dedup

/-- `FuzzyLogic._check_all_variables_provided`: nonempty missing set → error. -/
def FuzzyLogic.check_all_variables_provided (fl : FuzzyLogic)
    (crisp_values : List (String × ℚ)) : Except Err Unit :=
  if (fl.missingInputs crisp_values).isEmpty then .ok ()
  else .error (.missingVariables (fl.missingInputs crisp_values))

/-- The dict comprehension
`inputs = {var.name: var.fuzzify(crisp_values[var.name]) for var in self.inputs}`. -/
def FuzzyLogic.fuzzifyInputs (fl : FuzzyLogic)
    (crisp_values : List (String × ℚ)) :
    Except Err (List (String × FuzzyVariable)) :=
  fl.inputs.mapM (fun v => do
    let fv ← v.fuzzify [(dictGet crisp_values v.name).getD 0]
    pure (v.name, fv))

/-- The body of the rule loop in `run_rules`:
`category, fuzzy_value = rule(**inputs); result[category] = result[category] | fuzzy_value`. -/
def FuzzyLogic.applyRule (inputs : List (String × FuzzyVariable))
    (result : FuzzyVariable) (rule : RuleFn) : Except Err FuzzyVariable := do
  let cur ← result.is_ (rule inputs).1
  let newv ← cur.or (rule inputs).2
  pure (result.setItem (rule inputs).1 newv)

/-- `FuzzyLogic.run_rules`. -/
def FuzzyLogic.run_rules (fl : FuzzyLogic) (crisp_values : List (String × ℚ)) :
    Except Err FuzzyVariable := do
  fl.check_all_variables_provided crisp_values
  let inputs ← fl.fuzzifyInputs crisp_values
  fl.rules.foldlM (FuzzyLogic.applyRule inputs) fl.output.clone

/-- `np.linspace(lo, hi, n)` (for the `n = 1000` resolution used by
`predict`; `npLinspace lo hi 1 = [lo]` matches numpy as well since Lean's
`x / 0 = 0`). -/
def npLinspace (lo hi : ℚ) (n : ℕ) : Degrees :=
  (List.range n).map (fun i : ℕ => lo + (i : ℚ) * (hi - lo) / ((n : ℚ) - 1))

/-- The aggregation loop of `predict`: starting from
`np.zeros_like(universe)`, OR in `output[category] & results[category]` for
every category of the rule results. -/
def FuzzyLogic.aggregate (outputF results : FuzzyVariable) (init : FuzzyValue) :
    Except Err FuzzyValue :=
  results.fuzzy_values.foldlM (fun agg p => do
    let oc ← outputF.is_ p.1
    let rc ← results.is_ p.1
    let inner ← oc.and rc
    agg.or inner) init

/-- `FuzzyLogic.predict`: Mamdani inference and centroid defuzzification.
`Option.none` models the NaN produced by the unchecked `0/0` division. -/
def FuzzyLogic.predict (fl : FuzzyLogic) (crisp_values : List (String × ℚ)) :
    Except Err (Option ℚ) := do
  let results ← fl.run_rules crisp_values
  let uni := npLinspace fl.output.min_val fl.output.max_val 1000
  let output ← fl.output.fuzzify uni
  let aggregation ← FuzzyLogic.aggregate output results
    ⟨uni.map (fun _ => 0)⟩
  let weighted ← npBroadcast2 (· * ·) uni aggregation.degree
  pure (if aggregation.degree.sum = 0 then none
    else some (weighted.sum / aggregation.degree.sum))

/-- `FuzzyLogic.predict_categorical`. -/
def FuzzyLogic.predict_categorical (fl : FuzzyLogic)
    (crisp_values : List (String × ℚ)) : Except Err String := do
  let results ← fl.run_rules crisp_values
  results.get_max_membership_category

instance : Inhabited FuzzyValue := ⟨FuzzyValue.default⟩

instance {α : Type} [DecidableEq α] : DecidableEq (Except Err α) := fun a b =>
  match a, b with
  | .ok x, .ok y =>
      if h : x = y then .isTrue (by rw [h]) else .isFalse (by simp [h])
  | .error e, .error f =>
      if h : e = f then .isTrue (by rw [h]) else .isFalse (by simp [h])
  | .ok _, .error _ => .isFalse (by simp)
  | .error _, .ok _ => .isFalse (by simp)

/-- A constant membership function (an "arbitrary custom shape" registered
through the generic `add_membership_function` API), used in concrete
instantiations. -/
def constMF (q : ℚ) : MembershipFunction := fun xs => ⟨xs.map (fun _ => q)⟩

/-! ### Concrete configurations used in witnesses and counterexamples -/

/-- An output variable with one category `"A"` (constant membership 1). -/
def outA : FuzzyVariable :=
  ⟨"out", 0, 1, [("A", constMF 1)], [("A", FuzzyValue.default)]⟩

/-- An output variable with two categories `"A"` and `"B"` (constant
membership 1). -/
def outAB : FuzzyVariable :=
  ⟨"out", 0, 1, [("A", constMF 1), ("B", constMF 1)],
    [("A", FuzzyValue.default), ("B", FuzzyValue.default)]⟩

/-- An input variable named `"x"` with one constant category. -/
def inX : FuzzyVariable :=
  ⟨"x", 0, 1, [("LOW", constMF 1)], [("LOW", FuzzyValue.default)]⟩

/-- A rule returning a fixed category with a fixed firing strength. -/
def constRule (cat : String) (q : ℚ) : RuleFn := fun _ => (cat, ⟨[q]⟩)

/-! ### Spec-side formulation of the centroid aggregation (claim C1) -/

/-- The claim's aggregate: pointwise over the `n`-point universe, the maximum
over all output categories of the minimum of that category's sampled
membership curve and that category's aggregated rule strength. -/
def specAggregate (entries : List (Degrees × ℚ)) (n : ℕ) : Degrees :=
  (List.range n).map (fun i =>
    entries.foldl (fun m e => max m (min (e.1.getD i 0) e.2)) 0)

/-- One entry per output category: the membership curve sampled on the
1000-point universe, paired with the (scalar) rule strength that `run_rules`
aggregated for that category. -/
def aggEntries (fl : FuzzyLogic) (res : FuzzyVariable) : List (Degrees × ℚ) :=
  fl.output.membership_functions.map (fun p =>
    ((p.2 (npLinspace fl.output.min_val fl.output.max_val 1000)).degree,
      ((dictGet res.fuzzy_values p.1).getD FuzzyValue.default).degree.headD 0))

/-- List-level form of the aggregation loop: OR (elementwise max) of the
clipped (elementwise min with the scalar strength) curves, starting from the
all-zero accumulator. -/
def foldAgg (entries : List (Degrees × ℚ)) (acc : Degrees) : Degrees :=
  entries.foldl (fun a e => List.zipWith max a (e.1.map (fun x => min x e.2))) acc

/-! ### The triangular membership degree at a single point -/

/-- The degree the triangular closure assigns to one sample point. -/
def triDegree (a b c x : ℚ) : ℚ :=
  if b ≠ c ∧ b ≤ x ∧ x ≤ c then (c - x) / (c - b)
  else if a ≠ b ∧ a ≤ x ∧ x ≤ b then (x - a) / (b - a) else 0

/-- The collected pointwise properties of the triangular membership shape
(for parameters `a ≤ b ≤ c`): vectorization, range, the two linear pieces,
vanishing outside the support, value at the peak and at the feet, and the
fully degenerate `a = b = c` case. -/
def TriSpec (a b c : ℚ) : Prop :=
  (∀ xs : Degrees, (triangularFunction a b c xs).degree =
    xs.map (triDegree a b c)) ∧
  (∀ x, a ≤ x → x ≤ c → 0 ≤ triDegree a b c x ∧ triDegree a b c x ≤ 1) ∧
  (∀ x, a ≠ b → a ≤ x → x ≤ b → triDegree a b c x = (x - a) / (b - a)) ∧
  (∀ x, b ≠ c → b ≤ x → x ≤ c → triDegree a b c x = (c - x) / (c - b)) ∧
  (∀ x, x < a ∨ c < x → triDegree a b c x = 0) ∧
  (¬(a = b ∧ b = c) → triDegree a b c b = 1) ∧
  (a ≠ b → triDegree a b c a = 0) ∧
  (b ≠ c → triDegree a b c c = 0) ∧
  (a = b → b = c → ∀ x, triDegree a b c x = 0)

/-! ### Association-list (Python dict) lemmas -/

theorem triangularFunction_degree (a b c : ℚ) (xs : Degrees) :
    (triangularFunction a b c xs).degree = xs.map (triDegree a b c) := by
  simp only [triangularFunction]
  apply List.map_congr_left
  intro x _
  unfold triDegree
  by_cases h2 : b ≠ c ∧ b ≤ x ∧ x ≤ c <;> by_cases h1 : a ≠ b ∧ a ≤ x ∧ x ≤ b <;>
    simp [h1, h2]

theorem dictGet_nil {α : Type} (k : String) : dictGet ([] : List (String × α)) k = none := rfl

theorem dictGet_cons {α : Type} (p : String × α) (l : List (String × α)) (k : String) :
    dictGet (p :: l) k = if p.1 = k then some p.2 else dictGet l k := by
  by_cases h : p.1 = k <;> simp [dictGet, List.find?_cons, h]

theorem dictHas_cons {α : Type} (p : String × α) (l : List (String × α)) (k : String) :
    dictHas (p :: l) k = (p.1 = k || dictHas l k) := by
  simp [dictHas]

theorem dictGet_isSome_of_dictHas {α : Type} {l : List (String × α)} {k : String}
    (h : dictHas l k = true) : (dictGet l k).isSome := by
  induction l with
  | nil => simp [dictHas] at h
  | cons p t ih =>
      rw [dictHas_cons] at h
      rw [dictGet_cons]
      by_cases hp : p.1 = k
      · simp [hp]
      · simp [hp] at h ⊢
        exact ih h

theorem dictHas_of_dictGet_eq_some {α : Type} {l : List (String × α)} {k : String} {v : α}
    (h : dictGet l k = some v) : dictHas l k = true := by
  induction l with
  | nil => simp [dictGet] at h
  | cons p t ih =>
      rw [dictGet_cons] at h
      rw [dictHas_cons]
      by_cases hp : p.1 = k
      · simp [hp]
      · simp [hp] at h ⊢
        exact ih h

theorem dictGet_map_update_self {α : Type} (l : List (String × α)) (k : String) (v : α)
    (h : dictHas l k = true) :
    dictGet (l.map (fun q => if q.1 = k then (k, v) else q)) k = some v := by
  induction l with
  | nil => simp [dictHas] at h
  | cons q t ih =>
      rw [List.map_cons, dictGet_cons]
      by_cases hq : q.1 = k
      · simp [hq]
      · rw [dictHas_cons] at h
        simp only [hq, decide_eq_true_eq, Bool.or_eq_true, false_or] at h
        rw [if_neg hq, if_neg hq]
        exact ih (by simpa using h)

theorem dictGet_map_update_ne {α : Type} (l : List (String × α)) {k k' : String} (v : α)
    (h : k' ≠ k) :
    dictGet (l.map (fun q => if q.1 = k then (k, v) else q)) k' = dictGet l k' := by
  induction l with
  | nil => rfl
  | cons q t ih =>
      rw [List.map_cons, dictGet_cons, dictGet_cons]
      by_cases hq : q.1 = k
      · rw [if_pos hq]
        rw [if_neg (show ¬(k, v).1 = k' from fun he => h he.symm),
          if_neg (fun he => h (hq.symm.trans he).symm)]
        exact ih
      · rw [if_neg hq]
        by_cases hq' : q.1 = k'
        · rw [if_pos hq', if_pos hq']
        · rw [if_neg hq', if_neg hq']
          exact ih

theorem dictGet_append_single_ne {α : Type} (l : List (String × α)) {k k' : String} (v : α)
    (h : k' ≠ k) : dictGet (l ++ [(k, v)]) k' = dictGet l k' := by
  induction l with
  | nil =>
      simp [dictGet_nil, List.nil_append]
      rw [dictGet_cons, if_neg (fun he => h he.symm)]
      rfl
  | cons q t ih =>
      rw [List.cons_append, dictGet_cons, dictGet_cons, ih]

theorem dictGet_dictSet_self {α : Type} (l : List (String × α)) (k : String) (v : α) :
    dictGet (dictSet l k v) k = some v := by
  unfold dictSet
  by_cases hl : dictHas l k
  · rw [if_pos hl]
    exact dictGet_map_update_self l k v hl
  · rw [if_neg hl]
    induction l with
    | nil => rw [List.nil_append, dictGet_cons, if_pos rfl]
    | cons q t ih =>
        rw [dictHas_cons] at hl
        simp only [Bool.or_eq_true, decide_eq_true_eq, not_or] at hl
        rw [List.cons_append, dictGet_cons, if_neg hl.1]
        exact ih (by simp [hl.2])

theorem dictGet_dictSet_ne {α : Type} (l : List (String × α)) {k k' : String} (v : α)
    (h : k' ≠ k) : dictGet (dictSet l k v) k' = dictGet l k' := by
  unfold dictSet
  by_cases hl : dictHas l k
  · rw [if_pos hl]
    exact dictGet_map_update_ne l v h
  · rw [if_neg hl]
    exact dictGet_append_single_ne l v h

theorem dictSet_keys {α : Type} {l : List (String × α)} {k : String} (v : α)
    (h : dictHas l k = true) : (dictSet l k v).map Prod.fst = l.map Prod.fst := by
  simp only [dictSet, h, if_true]
  rw [List.map_map]
  apply List.map_congr_left
  intro p _
  by_cases hp : p.1 = k <;> simp [hp]

theorem triDegree_piece_up (a b c x : ℚ) (hbc : b ≤ c) (hab' : a ≠ b)
    (h1 : a ≤ x) (h2 : x ≤ b) : triDegree a b c x = (x - a) / (b - a) := by
  unfold triDegree
  by_cases hb : b ≠ c ∧ b ≤ x ∧ x ≤ c
  · have hxb : x = b := le_antisymm h2 hb.2.1
    subst hxb
    rw [if_pos hb]
    rw [div_self (by intro h; exact hb.1 (by linarith)),
      div_self (by intro h; exact hab' (by linarith))]
  · rw [if_neg hb, if_pos ⟨hab', h1, h2⟩]

theorem triDegree_piece_down (a b c x : ℚ) (hbc' : b ≠ c)
    (h1 : b ≤ x) (h2 : x ≤ c) : triDegree a b c x = (c - x) / (c - b) := by
  unfold triDegree
  rw [if_pos ⟨hbc', h1, h2⟩]

theorem triDegree_outside (a b c x : ℚ) (hab : a ≤ b) (hbc : b ≤ c)
    (h : x < a ∨ c < x) : triDegree a b c x = 0 := by
  unfold triDegree
  rcases h with h | h
  · rw [if_neg (by rintro ⟨-, h1, -⟩; linarith), if_neg (by rintro ⟨-, h1, -⟩; linarith)]
  · rw [if_neg (by rintro ⟨-, -, h2⟩; linarith), if_neg (by rintro ⟨-, -, h2⟩; linarith)]

theorem triDegree_mem_unit (a b c x : ℚ) (hab : a ≤ b) (hbc : b ≤ c)
    (buz : a ≤ x) (h2 : x ≤ c) :
    0 ≤ triDegree a b c x ∧ triDegree a b c x ≤ 1 := by
  unfold triDegree
  by_cases hb : b ≠ c ∧ b ≤ x ∧ x ≤ c
  · rw [if_pos hb]
    have hcb : 0 < c - b := by
      rcases lt_or_eq_of_le hbc with h | h
      · linarith
      · exact absurd h hb.1
    constructor
    · apply div_nonneg <;> linarith
    · rw [div_le_one hcb]; linarith
  · rw [if_neg hb]
    by_cases ha : a ≠ b ∧ a ≤ x ∧ x ≤ b
    · rw [if_pos ha]
      have hba : 0 < b - a := by
        rcases lt_or_eq_of_le hab with h | h
        · linarith
        · exact absurd h ha.1
      constructor
      · apply div_nonneg <;> linarith
      · rw [div_le_one hba]; linarith
    · rw [if_neg ha]; norm_num

theorem triDegree_peak (a b c : ℚ) (hab : a ≤ b) (hbc : b ≤ c)
    (h : ¬(a = b ∧ b = c)) : triDegree a b c b = 1 := by
  unfold triDegree
  by_cases hbc' : b = c
  · have hab' : a ≠ b := fun he => h ⟨he, hbc'⟩
    rw [if_neg (by rintro ⟨hne, -, -⟩; exact hne hbc'), if_pos ⟨hab', hab, le_refl b⟩,
      div_self (by intro hz; exact hab' (by linarith))]
  · rw [if_pos ⟨hbc', le_refl b, hbc⟩, div_self (by intro hz; exact hbc' (by linarith))]

theorem triDegree_degenerate (a b c : ℚ) (h1 : a = b) (h2 : b = c) (x : ℚ) :
    triDegree a b c x = 0 := by
  unfold triDegree
  rw [if_neg (by rintro ⟨hne, -, -⟩; exact hne h2),
    if_neg (by rintro ⟨hne, -, -⟩; exact hne h1)]

/-- C2 (amended): all the stated properties of
`add_triangular_membership_function` hold for `a ≤ b ≤ c`, except that at the
fully degenerate `a = b = c` the peak value is 0, not 1. -/
theorem C2_triangular_membership (a b c : ℚ) (hab : a ≤ b) (hbc : b ≤ c) :
    TriSpec a b c := by
  refine ⟨triangularFunction_degree a b c,
    fun x h1 h2 => triDegree_mem_unit a b c x hab hbc h1 h2,
    fun x hne h1 h2 => triDegree_piece_up a b c x hbc hne h1 h2,
    fun x hne h1 h2 => triDegree_piece_down a b c x hne h1 h2,
    fun x h => triDegree_outside a b c x hab hbc h,
    triDegree_peak a b c hab hbc,
    fun hne => ?_, fun hne => ?_,
    fun h1 h2 x => triDegree_degenerate a b c h1 h2 x⟩
  · rw [triDegree_piece_up a b c a hbc hne (le_refl a) hab]
    simp
  · rw [triDegree_piece_down a b c c hne hbc (le_refl c)]
    simp

/-- Witness for C2 at `a = 0, b = 1, c = 2`. -/
theorem C2_triangular_membership_witness :
    ((0:ℚ) ≤ 1 ∧ (1:ℚ) ≤ 2) ∧ TriSpec 0 1 2 :=
  ⟨⟨by norm_num, by norm_num⟩, C2_triangular_membership 0 1 2 (by norm_num) (by norm_num)⟩

/-- Counterexample to C2 as stated: for the degenerate triangle
`a = b = c = 5` the degree at the peak `x = b = 5` is 0, not 1. -/
theorem C2_counterexample :
    (triangularFunction 5 5 5 [(5:ℚ)]).degree = [0] ∧ (0:ℚ) ≠ 1 := by
  constructor
  · simp [triangularFunction]
  · norm_num

/-! ### FuzzyValue combinator algebra -/

theorem mem_zipWith_exists {α : Type} {f : α → α → α} {a b : List α} {d : α}
    (h : d ∈ List.zipWith f a b) : ∃ x ∈ a, ∃ y ∈ b, d = f x y := by
  induction a generalizing b with
  | nil => simp at h
  | cons x t ih =>
      cases b with
      | nil => simp at h
      | cons y s =>
          rw [List.zipWith_cons_cons] at h
          rcases List.mem_cons.mp h with h | h
          · exact ⟨x, List.mem_cons_self x t, y, List.mem_cons_self y s, h⟩
          · rcases ih h with ⟨x', hx, y', hy, hd⟩
            exact ⟨x', List.mem_cons_of_mem x hx, y', List.mem_cons_of_mem y hy, hd⟩

theorem npBroadcast2_same_length (f : ℚ → ℚ → ℚ) {a b : Degrees}
    (h : a.length = b.length) : npBroadcast2 f a b = .ok (List.zipWith f a b) := by
  unfold npBroadcast2
  rw [if_pos h]

/-- C9: on equal-length degree sequences whose entries lie in `[0,1]`, AND
(elementwise min) and OR (elementwise max) succeed and return sequences whose
entries lie in `[0,1]`; NOT (elementwise `1 - d`) also preserves `[0,1]`. -/
theorem C9_combinators_preserve_unit_interval (a b : FuzzyValue)
    (hlen : a.degree.length = b.degree.length)
    (ha : ∀ d ∈ a.degree, 0 ≤ d ∧ d ≤ 1) (hb : ∀ d ∈ b.degree, 0 ≤ d ∧ d ≤ 1) :
    (∃ r, a.and b = .ok r ∧ ∀ d ∈ r.degree, 0 ≤ d ∧ d ≤ 1) ∧
    (∃ r, a.or b = .ok r ∧ ∀ d ∈ r.degree, 0 ≤ d ∧ d ≤ 1) ∧
    (∀ d ∈ a.invert.degree, 0 ≤ d ∧ d ≤ 1) := by
  refine ⟨⟨⟨List.zipWith min a.degree b.degree⟩, ?_, ?_⟩,
    ⟨⟨List.zipWith max a.degree b.degree⟩, ?_, ?_⟩, ?_⟩
  · rw [FuzzyValue.and, npBroadcast2_same_length min hlen]
    rfl
  · intro d hd
    rcases mem_zipWith_exists hd with ⟨x, hx, y, hy, hxy⟩
    rcases ha x hx with ⟨hx0, hx1⟩
    rcases hb y hy with ⟨hy0, hy1⟩
    subst hxy
    exact ⟨le_min hx0 hy0, le_trans (min_le_left x y) hx1⟩
  · rw [FuzzyValue.or, npBroadcast2_same_length max hlen]
    rfl
  · intro d hd
    rcases mem_zipWith_exists hd with ⟨x, hx, y, hy, hxy⟩
    rcases ha x hx with ⟨hx0, hx1⟩
    rcases hb y hy with ⟨hy0, hy1⟩
    subst hxy
    exact ⟨le_trans hx0 (le_max_left x y), max_le hx1 hy1⟩
  · intro d hd
    rcases List.mem_map.mp hd with ⟨x, hx, hxd⟩
    rcases ha x hx with ⟨hx0, hx1⟩
    subst hxd
    constructor <;> linarith

/-- Witness for C9 at `a = [0, 1]`, `b = [1, 0]`. -/
theorem C9_combinators_preserve_unit_interval_witness :
    ((FuzzyValue.mk [0, 1]).degree.length = (FuzzyValue.mk [1, 0]).degree.length ∧
      (∀ d ∈ (FuzzyValue.mk [0, 1]).degree, 0 ≤ d ∧ d ≤ 1) ∧
      (∀ d ∈ (FuzzyValue.mk [1, 0]).degree, 0 ≤ d ∧ d ≤ 1)) ∧
    ((∃ r, (FuzzyValue.mk [0, 1]).and ⟨[1, 0]⟩ = .ok r ∧ ∀ d ∈ r.degree, 0 ≤ d ∧ d ≤ 1) ∧
      (∃ r, (FuzzyValue.mk [0, 1]).or ⟨[1, 0]⟩ = .ok r ∧ ∀ d ∈ r.degree, 0 ≤ d ∧ d ≤ 1) ∧
      (∀ d ∈ (FuzzyValue.mk [0, 1]).invert.degree, 0 ≤ d ∧ d ≤ 1)) :=
  ⟨⟨by decide, by decide, by decide⟩,
    C9_combinators_preserve_unit_interval ⟨[0, 1]⟩ ⟨[1, 0]⟩ (by decide) (by decide) (by decide)⟩

/-- Counterexample to C3 as stated: AND and OR of a length-1 and a length-3
FuzzyValue silently broadcast (numpy semantics) and return a length-3
result. -/
theorem C3_counterexample :
    FuzzyValue.and ⟨[1]⟩ ⟨[0, 2, 5]⟩ = .ok ⟨[0, 1, 1]⟩ ∧
    FuzzyValue.or ⟨[1]⟩ ⟨[0, 2, 5]⟩ = .ok ⟨[1, 2, 5]⟩ ∧
    ([0, 1, 1] : Degrees).length = 3 := by
  refine ⟨by decide, by decide, rfl⟩

/-- C3 (amended): combining FuzzyValues of different lengths raises a
broadcast error **unless** one operand has length 1, in which case numpy
broadcasting silently stretches it elementwise against the other operand and
returns a result of the other operand's length. -/
theorem C3_mismatched_length_broadcast (a b : FuzzyValue) :
    (a.degree.length ≠ b.degree.length → a.degree.length ≠ 1 → b.degree.length ≠ 1 →
      a.and b = .error .broadcastMismatch ∧ a.or b = .error .broadcastMismatch) ∧
    (a.degree.length = 1 → b.degree.length ≠ 1 →
      a.and b = .ok ⟨b.degree.map (min (a.degree.headD 0))⟩ ∧
      a.or b = .ok ⟨b.degree.map (max (a.degree.headD 0))⟩) ∧
    (b.degree.length = 1 → a.degree.length ≠ 1 →
      a.and b = .ok ⟨a.degree.map (fun x => min x (b.degree.headD 0))⟩ ∧
      a.or b = .ok ⟨a.degree.map (fun x => max x (b.degree.headD 0))⟩) := by
  unfold FuzzyValue.and FuzzyValue.or npBroadcast2
  refine ⟨fun h1 h2 h3 => ⟨?_, ?_⟩, fun h1 h2 => ⟨?_, ?_⟩, fun h1 h2 => ⟨?_, ?_⟩⟩
  · rw [if_neg h1, if_neg h2, if_neg h3]
    rfl
  · rw [if_neg h1, if_neg h2, if_neg h3]
    rfl
  · rw [if_neg (show a.degree.length ≠ b.degree.length by
      rw [h1]; exact fun he => h2 he.symm), if_pos h1]
    rfl
  · rw [if_neg (show a.degree.length ≠ b.degree.length by
      rw [h1]; exact fun he => h2 he.symm), if_pos h1]
    rfl
  · rw [if_neg (show a.degree.length ≠ b.degree.length from
      fun he => h2 (he.trans h1)), if_neg h2, if_pos h1]
    rfl
  · rw [if_neg (show a.degree.length ≠ b.degree.length from
      fun he => h2 (he.trans h1)), if_neg h2, if_pos h1]
    rfl

/-- Witness for C3 (amended): a genuine length mismatch (2 vs 3) is rejected,
while a length-1 operand broadcasts. -/
theorem C3_mismatched_length_broadcast_witness :
    FuzzyValue.and ⟨[1, 2]⟩ ⟨[1, 2, 3]⟩ = .error .broadcastMismatch ∧
    FuzzyValue.or ⟨[1]⟩ ⟨[1, 2, 3]⟩ = .ok ⟨[1, 2, 3]⟩ := by
  constructor
  · exact ((C3_mismatched_length_broadcast ⟨[1, 2]⟩ ⟨[1, 2, 3]⟩).1
      (by decide) (by decide) (by decide)).1
  · have h := ((C3_mismatched_length_broadcast ⟨[1]⟩ ⟨[1, 2, 3]⟩).2.1 rfl (by decide)).2
    rw [h]
    decide

/-! ### FuzzyVariable.is_ before fuzzification -/

/-- Counterexample to C5 as stated: querying a freshly registered category
before any fuzzification does **not** raise — it returns the pre-initialised
default `FuzzyValue([0])`. -/
theorem C5_counterexample :
    ((FuzzyVariable.create "temperature" 0 1).add_membership_function "COLD"
        (constMF 1)).map (fun v => v.is_ "COLD") = .ok (.ok ⟨[0]⟩) := by
  rfl

/-- C5 (amended): `add_membership_function` pre-initialises the category's
fuzzy value, so `is_` on a registered category before fuzzification returns
the default all-zero `FuzzyValue([0])` without error; `is_` on a label absent
from `_fuzzy_values` raises the unknown-category error. -/
theorem C5_unfuzzified_access (v : FuzzyVariable) (cat : String) :
    (∀ (f : MembershipFunction) (v' : FuzzyVariable),
      v.add_membership_function cat f = .ok v' → v'.is_ cat = .ok FuzzyValue.default) ∧
    (dictGet v.fuzzy_values cat = none →
      v.is_ cat = .error (.unknownCategory cat v.name)) := by
  constructor
  · intro f v' h
    unfold FuzzyVariable.add_membership_function at h
    by_cases hd : dictHas v.membership_functions cat
    · rw [if_pos hd] at h
      cases h
    · rw [if_neg hd] at h
      cases h
      unfold FuzzyVariable.is_
      rw [show ({ v with
          fuzzy_values := dictSet v.fuzzy_values cat FuzzyValue.default,
          membership_functions :=
            dictSet v.membership_functions cat f } : FuzzyVariable).fuzzy_values =
          dictSet v.fuzzy_values cat FuzzyValue.default from rfl,
        dictGet_dictSet_self]
  · intro h
    unfold FuzzyVariable.is_
    rw [h]

/-! ### run_rules error paths -/

theorem except_bind_ok {α β : Type} (a : α) (f : α → Except Err β) :
    ((Except.ok a : Except Err α) >>= f) = f a := rfl

theorem except_bind_error {α β : Type} (e : Err) (f : α → Except Err β) :
    ((Except.error e : Except Err α) >>= f) = .error e := rfl

theorem mapM_congr {α β : Type} {f g : α → Except Err β} (l : List α)
    (h : ∀ x ∈ l, f x = g x) : l.mapM f = l.mapM g := by
  induction l with
  | nil => rfl
  | cons x t ih =>
      rw [List.mapM_cons, List.mapM_cons, h x (List.mem_cons_self x t),
        ih (fun y hy => h y (List.mem_cons_of_mem x hy))]

theorem dictHas_append {α : Type} (l₁ l₂ : List (String × α)) (k : String) :
    dictHas (l₁ ++ l₂) k = (dictHas l₁ k || dictHas l₂ k) := by
  simp [dictHas, List.any_append]

theorem dictGet_append_of_not_mem_right {α : Type} {extra : List (String × α)}
    (cv : List (String × α)) {k : String} (h : ∀ p ∈ extra, p.1 ≠ k) :
    dictGet (cv ++ extra) k = dictGet cv k := by
  induction cv with
  | nil =>
      rw [List.nil_append, dictGet_nil, dictGet]
      rw [List.find?_eq_none.mpr]
      · rfl
      · intro p hp
        simpa using h p hp
  | cons q t ih =>
      rw [List.cons_append, dictGet_cons, dictGet_cons, ih]

/-- C8: a missing declared input makes `run_rules`, `predict` and
`predict_categorical` all fail synchronously with an error naming the
missing variables; no partial result is produced. -/
theorem C8_missing_input (fl : FuzzyLogic) (cv : List (String × ℚ))
    (h : fl.missingInputs cv ≠ []) :
    fl.run_rules cv = .error (.missingVariables (fl.missingInputs cv)) ∧
    fl.predict cv = .error (.missingVariables (fl.missingInputs cv)) ∧
    fl.predict_categorical cv = .error (.missingVariables (fl.missingInputs cv)) := by
  have hc : fl.check_all_variables_provided cv =
      .error (.missingVariables (fl.missingInputs cv)) := by
    unfold FuzzyLogic.check_all_variables_provided
    rw [if_neg (fun hemp => h (List.isEmpty_iff.mp hemp))]
  have hr : fl.run_rules cv = .error (.missingVariables (fl.missingInputs cv)) := by
    unfold FuzzyLogic.run_rules
    rw [hc]
    rfl
  refine ⟨hr, ?_, ?_⟩
  · unfold FuzzyLogic.predict
    rw [hr]
    rfl
  · unfold FuzzyLogic.predict_categorical
    rw [hr]
    rfl

/-- Witness for C8: an engine whose sole input `"x"` gets no crisp value. -/
theorem C8_missing_input_witness :
    (FuzzyLogic.missingInputs ⟨[inX], outA, []⟩ [] ≠ []) ∧
    FuzzyLogic.run_rules ⟨[inX], outA, []⟩ [] =
      .error (.missingVariables (FuzzyLogic.missingInputs ⟨[inX], outA, []⟩ [])) ∧
    FuzzyLogic.predict ⟨[inX], outA, []⟩ [] =
      .error (.missingVariables (FuzzyLogic.missingInputs ⟨[inX], outA, []⟩ [])) ∧
    FuzzyLogic.predict_categorical ⟨[inX], outA, []⟩ [] =
      .error (.missingVariables (FuzzyLogic.missingInputs ⟨[inX], outA, []⟩ [])) :=
  ⟨by decide, C8_missing_input ⟨[inX], outA, []⟩ [] (by decide)⟩

/-- C10: keyword arguments whose names match no declared input variable are
accepted and have no effect: appending them to the crisp-value dict leaves
`run_rules`, `predict` and `predict_categorical` unchanged. -/
theorem C10_extra_kwargs_ignored (fl : FuzzyLogic) (cv extra : List (String × ℚ))
    (h : ∀ p ∈ extra, p.1 ∉ fl.inputs.map FuzzyVariable.name) :
    fl.run_rules (cv ++ extra) = fl.run_rules cv ∧
    fl.predict (cv ++ extra) = fl.predict cv ∧
    fl.predict_categorical (cv ++ extra) = fl.predict_categorical cv := by
  have hmiss : fl.missingInputs (cv ++ extra) = fl.missingInputs cv := by
    unfold FuzzyLogic.missingInputs
    congr 1
    apply List.filter_congr
    intro n hn
    have hex : dictHas extra n = false := by
      rw [dictHas]
      rw [List.any_eq_false]
      intro p hp
      simp only [decide_eq_true_eq]
      intro he
      exact h p hp (he ▸ hn)
    rw [dictHas_append, hex, Bool.or_false]
  have hcheck : fl.check_all_variables_provided (cv ++ extra) =
      fl.check_all_variables_provided cv := by
    unfold FuzzyLogic.check_all_variables_provided
    rw [hmiss]
  have henv : fl.fuzzifyInputs (cv ++ extra) = fl.fuzzifyInputs cv := by
    unfold FuzzyLogic.fuzzifyInputs
    apply mapM_congr
    intro v hv
    rw [dictGet_append_of_not_mem_right cv
      (fun p hp he => h p hp (he ▸ List.mem_map_of_mem FuzzyVariable.name hv))]
  have hrr : fl.run_rules (cv ++ extra) = fl.run_rules cv := by
    unfold FuzzyLogic.run_rules
    rw [hcheck, henv]
  refine ⟨hrr, ?_, ?_⟩
  · unfold FuzzyLogic.predict
    rw [hrr]
  · unfold FuzzyLogic.predict_categorical
    rw [hrr]

/-- Witness for C10: the extra argument `"bogus"` is ignored and the calls
succeed. -/
theorem C10_extra_kwargs_ignored_witness :
    (∀ p ∈ [(("bogus" : String), (7 : ℚ))],
      p.1 ∉ (FuzzyLogic.inputs ⟨[inX], outA, [constRule "A" 1]⟩).map FuzzyVariable.name) ∧
    (FuzzyLogic.run_rules ⟨[inX], outA, [constRule "A" 1]⟩ ([("x", 0)] ++ [("bogus", 7)]) =
      FuzzyLogic.run_rules ⟨[inX], outA, [constRule "A" 1]⟩ [("x", 0)] ∧
    FuzzyLogic.predict ⟨[inX], outA, [constRule "A" 1]⟩ ([("x", 0)] ++ [("bogus", 7)]) =
      FuzzyLogic.predict ⟨[inX], outA, [constRule "A" 1]⟩ [("x", 0)] ∧
    FuzzyLogic.predict_categorical ⟨[inX], outA, [constRule "A" 1]⟩
        ([("x", 0)] ++ [("bogus", 7)]) =
      FuzzyLogic.predict_categorical ⟨[inX], outA, [constRule "A" 1]⟩ [("x", 0)]) ∧
    (FuzzyLogic.run_rules ⟨[inX], outA, [constRule "A" 1]⟩
        ([("x", 0)] ++ [("bogus", 7)])).isOk = true :=
  ⟨by decide, C10_extra_kwargs_ignored ⟨[inX], outA, [constRule "A" 1]⟩
    [("x", 0)] [("bogus", 7)] (by decide), by decide⟩

/-- C7: when processing reaches a rule whose returned category is not
registered on the (aggregated) output variable, `run_rules` — and hence
`predict` and `predict_categorical` — raises the unknown-category error. -/
theorem C7_unknown_category (fl : FuzzyLogic) (cv : List (String × ℚ))
    (env : List (String × FuzzyVariable)) (pre post : List RuleFn) (r : RuleFn)
    (s : FuzzyVariable)
    (hcheck : fl.check_all_variables_provided cv = .ok ())
    (henv : fl.fuzzifyInputs cv = .ok env)
    (hrules : fl.rules = pre ++ r :: post)
    (hpre : pre.foldlM (FuzzyLogic.applyRule env) fl.output.clone = .ok s)
    (hcat : dictGet s.fuzzy_values (r env).1 = none) :
    fl.run_rules cv = .error (.unknownCategory (r env).1 s.name) ∧
    fl.predict cv = .error (.unknownCategory (r env).1 s.name) ∧
    fl.predict_categorical cv = .error (.unknownCategory (r env).1 s.name) := by
  have hstep : FuzzyLogic.applyRule env s r =
      .error (.unknownCategory (r env).1 s.name) := by
    unfold FuzzyLogic.applyRule FuzzyVariable.is_
    rw [hcat]
    rfl
  have hrr : fl.run_rules cv = .error (.unknownCategory (r env).1 s.name) := by
    unfold FuzzyLogic.run_rules
    rw [hcheck, except_bind_ok, henv, except_bind_ok, hrules, List.foldlM_append,
      hpre, except_bind_ok, List.foldlM_cons, hstep]
    rfl
  refine ⟨hrr, ?_, ?_⟩
  · unfold FuzzyLogic.predict
    rw [hrr]
    rfl
  · unfold FuzzyLogic.predict_categorical
    rw [hrr]
    rfl

/-- Witness for C7: a rule that returns the unregistered category `"NOPE"`. -/
theorem C7_unknown_category_witness :
    (FuzzyLogic.check_all_variables_provided ⟨[], outA, [constRule "NOPE" 1]⟩ [] = .ok () ∧
      FuzzyLogic.fuzzifyInputs ⟨[], outA, [constRule "NOPE" 1]⟩ [] = .ok [] ∧
      dictGet outA.clone.fuzzy_values (constRule "NOPE" 1 []).1 = none) ∧
    FuzzyLogic.run_rules ⟨[], outA, [constRule "NOPE" 1]⟩ [] =
      .error (.unknownCategory (constRule "NOPE" 1 []).1 outA.clone.name) ∧
    FuzzyLogic.predict ⟨[], outA, [constRule "NOPE" 1]⟩ [] =
      .error (.unknownCategory (constRule "NOPE" 1 []).1 outA.clone.name) ∧
    FuzzyLogic.predict_categorical ⟨[], outA, [constRule "NOPE" 1]⟩ [] =
      .error (.unknownCategory (constRule "NOPE" 1 []).1 outA.clone.name) :=
  ⟨⟨rfl, rfl, rfl⟩,
    C7_unknown_category ⟨[], outA, [constRule "NOPE" 1]⟩ [] [] [] []
      (constRule "NOPE" 1) outA.clone rfl rfl rfl rfl rfl⟩

/-! ### Rule-order invariance: pointwise max identities -/

theorem max_rot (x y z : ℚ) : max (max x y) z = max (max x z) y := by
  rw [max_assoc, max_comm y z, ← max_assoc]

theorem zipWith_max_rot (c a b : List ℚ) :
    List.zipWith max (List.zipWith max c a) b =
      List.zipWith max (List.zipWith max c b) a := by
  induction c generalizing a b with
  | nil => simp
  | cons x ct ih =>
      cases a with
      | nil => simp
      | cons y at' =>
          cases b with
          | nil => simp
          | cons z bt =>
              simp only [List.zipWith_cons_cons]
              rw [ih, max_rot]

theorem map_maxConst_zipWith (s : ℚ) (c a : List ℚ) :
    (List.zipWith max c a).map (fun x => max x s) =
      List.zipWith max (c.map (fun x => max x s)) a := by
  induction c generalizing a with
  | nil => simp
  | cons x ct ih =>
      cases a with
      | nil => simp
      | cons y at' =>
          simp only [List.zipWith_cons_cons, List.map_cons]
          rw [ih, max_rot]

theorem zipWith_map_maxConst (s : ℚ) (a b : List ℚ) :
    List.zipWith max (a.map (max s)) b = List.zipWith max (b.map (max s)) a := by
  induction a generalizing b with
  | nil => cases b <;> simp
  | cons x at' ih =>
      cases b with
      | nil => simp
      | cons y bt =>
          simp only [List.map_cons, List.zipWith_cons_cons]
          rw [ih, max_assoc, max_comm x y, ← max_assoc]

theorem map_map_maxConst_comm (s t : ℚ) (l : List ℚ) :
    (l.map (fun x => max x s)).map (fun x => max x t) =
      (l.map (fun x => max x t)).map (fun x => max x s) := by
  rw [List.map_map, List.map_map]
  apply List.map_congr_left
  intro x _
  simp only [Function.comp_apply]
  rw [max_rot]

/-- A list of length 1 is a singleton on its `headD`. -/
theorem eq_headD_of_length_one {l : List ℚ} (h : l.length = 1) :
    l = [l.headD 0] := by
  cases l with
  | nil => simp at h
  | cons x t =>
      cases t with
      | nil => rfl
      | cons y s => simp at h

theorem bmax_swap {c a b r : Degrees}
    (h : (npBroadcast2 max c a).bind (fun x => npBroadcast2 max x b) = .ok r) :
    (npBroadcast2 max c b).bind (fun x => npBroadcast2 max x a) = .ok r := by
  cases hca : npBroadcast2 max c a with
  | error e => rw [hca] at h; cases h
  | ok r1 =>
      rw [hca] at h
      simp only [Except.bind] at h
      unfold npBroadcast2 at hca h ⊢
      by_cases h1 : c.length = a.length
      · rw [if_pos h1] at hca
        cases hca
        have hlen1 : (List.zipWith max c a).length = c.length := by
          rw [List.length_zipWith, h1, min_self]
        by_cases h2 : (List.zipWith max c a).length = b.length
        · -- n = p = q
          rw [if_pos h2] at h
          cases h
          have hcb : c.length = b.length := hlen1 ▸ h2
          rw [if_pos hcb]
          simp only [Except.bind]
          rw [if_pos (by rw [List.length_zipWith, ← hcb, min_self, h1])]
          rw [zipWith_max_rot]
        · by_cases h3 : (List.zipWith max c a).length = 1
          · -- n = p = 1, q ≠ 1
            rw [if_neg h2, if_pos h3] at h
            cases h
            have hc1 : c.length = 1 := hlen1 ▸ h3
            have ha1 : a.length = 1 := h1 ▸ hc1
            have hq1 : ¬ b.length = 1 := fun he => h2 (h3.trans he.symm)
            rw [if_neg (fun he : c.length = b.length => hq1 (he ▸ hc1)), if_pos hc1]
            simp only [Except.bind]
            have hmap : (b.map (max (c.headD 0))).length = b.length := by simp
            rw [if_neg (fun he : (b.map (max (c.headD 0))).length = a.length =>
                hq1 (by rw [← hmap, he]; exact ha1)),
              if_neg (fun he : (b.map (max (c.headD 0))).length = 1 =>
                hq1 (hmap ▸ he)), if_pos ha1]
            have hhead : (List.zipWith max c a).headD 0 = max (c.headD 0) (a.headD 0) := by
              conv_lhs => rw [eq_headD_of_length_one hc1, eq_headD_of_length_one ha1]
              rfl
            congr 1
            rw [List.map_map]
            apply List.map_congr_left
            intro x _
            simp only [Function.comp_apply]
            rw [hhead, max_rot]
          · by_cases h4 : b.length = 1
            · -- n = p ≠ 1, q = 1
              rw [if_neg h2, if_neg h3, if_pos h4] at h
              cases h
              have hn1 : ¬ c.length = 1 := fun he => h3 (hlen1.trans he)
              rw [if_neg (fun he : c.length = b.length => hn1 (he.trans h4)),
                if_neg hn1, if_pos h4]
              simp only [Except.bind]
              rw [if_pos (by simp [h1])]
              rw [map_maxConst_zipWith]
            · rw [if_neg h2, if_neg h3, if_neg h4] at h
              cases h
      · rw [if_neg h1] at hca
        by_cases h1' : c.length = 1
        · -- n = 1, p ≠ 1
          rw [if_pos h1'] at hca
          cases hca
          have hp1 : ¬ a.length = 1 := fun he => h1 (h1'.trans he.symm)
          have hlen1 : (a.map (max (c.headD 0))).length = a.length := by simp
          by_cases h2 : a.length = b.length
          · -- q = p ≠ 1
            rw [if_pos (hlen1.trans h2)] at h
            cases h
            have hq1 : ¬ b.length = 1 := fun he => hp1 (h2.trans he)
            rw [if_neg (fun he : c.length = b.length => hq1 (he ▸ h1')), if_pos h1']
            simp only [Except.bind]
            rw [if_pos (by simp [h2])]
            rw [zipWith_map_maxConst]
          · by_cases h3 : b.length = 1
            · -- n = q = 1, p ≠ 1
              rw [if_neg (fun he : (a.map (max (c.headD 0))).length = b.length =>
                  h2 (hlen1 ▸ he)),
                if_neg (fun he : (a.map (max (c.headD 0))).length = 1 =>
                  hp1 (hlen1 ▸ he)),
                if_pos h3] at h
              cases h
              rw [if_pos (h1'.trans h3.symm)]
              simp only [Except.bind]
              have hzb : (List.zipWith max c b).length = 1 := by
                rw [List.length_zipWith, h1', h3, min_self]
              rw [if_neg (fun he : (List.zipWith max c b).length = a.length =>
                  hp1 (hzb ▸ he.symm ▸ rfl)),
                if_pos hzb]
              have hhead : (List.zipWith max c b).headD 0 = max (c.headD 0) (b.headD 0) := by
                conv_lhs => rw [eq_headD_of_length_one h1', eq_headD_of_length_one h3]
                rfl
              congr 1
              rw [List.map_map]
              apply List.map_congr_left
              intro x _
              simp only [Function.comp_apply]
              rw [hhead, max_rot]
            · rw [if_neg (fun he : (a.map (max (c.headD 0))).length = b.length =>
                  h2 (hlen1 ▸ he)),
                if_neg (fun he : (a.map (max (c.headD 0))).length = 1 =>
                  hp1 (hlen1 ▸ he)),
                if_neg h3] at h
              cases h
        · by_cases h1'' : a.length = 1
          · -- p = 1, n ≠ 1
            rw [if_neg h1', if_pos h1''] at hca
            cases hca
            have hlen1 : (c.map (fun x => max x (a.headD 0))).length = c.length := by simp
            by_cases h2 : c.length = b.length
            · -- q = n ≠ 1
              rw [if_pos (hlen1.trans h2)] at h
              cases h
              rw [if_pos h2]
              simp only [Except.bind]
              have hzb : (List.zipWith max c b).length = c.length := by
                rw [List.length_zipWith, h2, min_self]
              rw [if_neg (fun he : (List.zipWith max c b).length = a.length =>
                  h1' (by rw [← hzb, he, h1''])),
                if_neg (fun he : (List.zipWith max c b).length = 1 =>
                  h1' (hzb ▸ he)),
                if_pos h1'']
              rw [map_maxConst_zipWith]
            · by_cases h3 : b.length = 1
              · -- n ≠ 1, p = q = 1
                rw [if_neg (fun he : (c.map (fun x => max x (a.headD 0))).length = b.length =>
                    h2 (hlen1 ▸ he)),
                  if_neg (fun he : (c.map (fun x => max x (a.headD 0))).length = 1 =>
                    h1' (hlen1 ▸ he)),
                  if_pos h3] at h
                cases h
                rw [if_neg (fun he : c.length = b.length => h1' (he.trans h3)),
                  if_neg h1', if_pos h3]
                simp only [Except.bind]
                have hmb : (c.map (fun x => max x (b.headD 0))).length = c.length := by simp
                rw [if_neg (fun he : (c.map (fun x => max x (b.headD 0))).length = a.length =>
                    h1' (by rw [← hmb, he, h1''])),
                  if_neg (fun he : (c.map (fun x => max x (b.headD 0))).length = 1 =>
                    h1' (hmb ▸ he)),
                  if_pos h1'']
                congr 1
                rw [List.map_map, List.map_map]
                apply List.map_congr_left
                intro x _
                simp only [Function.comp_apply]
                rw [max_rot]
              · rw [if_neg (fun he : (c.map (fun x => max x (a.headD 0))).length = b.length =>
                    h2 (hlen1 ▸ he)),
                  if_neg (fun he : (c.map (fun x => max x (a.headD 0))).length = 1 =>
                    h1' (hlen1 ▸ he)),
                  if_neg h3] at h
                cases h
          · rw [if_neg h1', if_neg h1''] at hca
            cases hca

/-! ### dict update algebra -/

theorem dictHas_iff_mem_keys {α : Type} (l : List (String × α)) (k : String) :
    dictHas l k = true ↔ k ∈ l.map Prod.fst := by
  simp only [dictHas, List.any_eq_true, decide_eq_true_eq, List.mem_map]

theorem not_key_of_dictHas_eq_false {α : Type} {l : List (String × α)} {k : String}
    (h : dictHas l k = false) : ∀ p ∈ l, p.1 ≠ k := by
  intro p hp he
  rw [dictHas, List.any_eq_false] at h
  exact absurd (by simpa using he) (h p hp)

theorem dictSet_dictSet_self {α : Type} (l : List (String × α)) (k : String) (v v' : α) :
    dictSet (dictSet l k v) k v' = dictSet l k v' := by
  by_cases hl : dictHas l k
  · have hk : dictHas (dictSet l k v) k = true := by
      rw [dictHas_iff_mem_keys, dictSet_keys v hl, ← dictHas_iff_mem_keys]
      exact hl
    rw [dictSet, if_pos hk]
    rw [show dictSet l k v = l.map (fun p => if p.1 = k then (k, v) else p) from
      by rw [dictSet, if_pos hl]]
    rw [dictSet, if_pos hl, List.map_map]
    apply List.map_congr_left
    intro p _
    by_cases hp : p.1 = k <;> simp [hp]
  · have hk : dictHas (dictSet l k v) k = true := by
      rw [dictSet, if_neg hl, dictHas_append, dictHas_cons]
      simp [dictHas]
    rw [dictSet, if_pos hk]
    rw [show dictSet l k v = l ++ [(k, v)] from by rw [dictSet, if_neg hl]]
    rw [List.map_append, List.map_cons, List.map_nil]
    rw [if_pos rfl]
    rw [dictSet, if_neg hl]
    congr 1
    conv_rhs => rw [show l = l.map id from (List.map_id l).symm]
    apply List.map_congr_left
    intro p hp
    rw [if_neg (not_key_of_dictHas_eq_false (by simpa using hl) p hp)]
    rfl

theorem dictSet_dictSet_comm {α : Type} (l : List (String × α)) {k k' : String}
    (v v' : α) (hne : k ≠ k') (hk : dictHas l k = true) (hk' : dictHas l k' = true) :
    dictSet (dictSet l k v) k' v' = dictSet (dictSet l k' v') k v := by
  have hk2 : dictHas (dictSet l k v) k' = true := by
    rw [dictHas_iff_mem_keys, dictSet_keys v hk, ← dictHas_iff_mem_keys]
    exact hk'
  have hk2' : dictHas (dictSet l k' v') k = true := by
    rw [dictHas_iff_mem_keys, dictSet_keys v' hk', ← dictHas_iff_mem_keys]
    exact hk
  rw [dictSet, if_pos hk2, show dictSet l k v = l.map (fun p => if p.1 = k then (k, v) else p)
      from by rw [dictSet, if_pos hk],
    dictSet, if_pos hk2', show dictSet l k' v' = l.map (fun p => if p.1 = k' then (k', v') else p)
      from by rw [dictSet, if_pos hk'],
    List.map_map, List.map_map]
  apply List.map_congr_left
  intro p _
  simp only [Function.comp_apply]
  by_cases hp : p.1 = k
  · have hpk' : ¬ p.1 = k' := by rw [hp]; exact hne
    simp [hp, hpk', hne]
  · by_cases hp' : p.1 = k'
    · have hk'k : ¬ (k' : String) = k := fun he => hne he.symm
      simp [hp, hp', hk'k]
    · simp [hp, hp']

/-! ### Rule-order invariance of run_rules -/

theorem except_bind_eq_ok {α β : Type} {x : Except Err α} {f : α → Except Err β}
    {b : β} : (x >>= f) = .ok b ↔ ∃ a, x = .ok a ∧ f a = .ok b := by
  cases x with
  | error e =>
      simp only [Bind.bind, Except.bind]
      constructor
      · intro h; cases h
      · rintro ⟨a, ha, -⟩; cases ha
  | ok a =>
      simp only [Bind.bind, Except.bind]
      constructor
      · intro h; exact ⟨a, rfl, h⟩
      · rintro ⟨a', ha, hf⟩; cases ha; exact hf

theorem except_map_eq_ok {α β : Type} {x : Except Err α} {g : α → β} {b : β} :
    (g <$> x) = .ok b ↔ ∃ a, x = .ok a ∧ g a = b := by
  cases x with
  | error e =>
      simp only [Functor.map, Except.map]
      constructor
      · intro h; cases h
      · rintro ⟨a, ha, -⟩; cases ha
  | ok a =>
      simp only [Functor.map, Except.map]
      constructor
      · intro h; cases h; exact ⟨a, rfl, rfl⟩
      · rintro ⟨a', ha, hf⟩; cases ha; rw [hf]

theorem is__eq_ok_iff {v : FuzzyVariable} {cat : String} {fv : FuzzyValue} :
    v.is_ cat = .ok fv ↔ dictGet v.fuzzy_values cat = some fv := by
  unfold FuzzyVariable.is_
  cases hg : dictGet v.fuzzy_values cat with
  | none =>
      constructor
      · intro h; cases h
      · intro h; cases h
  | some u =>
      constructor
      · intro h; cases h; rfl
      · intro h; cases h; rfl

theorem or_eq_ok_iff {a b c : FuzzyValue} :
    a.or b = .ok c ↔ npBroadcast2 max a.degree b.degree = .ok c.degree := by
  unfold FuzzyValue.or
  cases hb : npBroadcast2 max a.degree b.degree with
  | error e =>
      simp only [Except.map]
      constructor
      · intro h; cases h
      · intro h; cases h
  | ok w =>
      simp only [Except.map]
      constructor
      · intro h; cases h; rfl
      · intro h
        cases c with
        | mk d =>
            simp only at h
            cases h
            rfl

theorem setItem_setItem_self (v : FuzzyVariable) (k : String) (a b : FuzzyValue) :
    (v.setItem k a).setItem k b = v.setItem k b := by
  unfold FuzzyVariable.setItem
  show ({ v with fuzzy_values := (dictSet (dictSet v.fuzzy_values k a) k b) } :
      FuzzyVariable) =
    { v with fuzzy_values := (dictSet v.fuzzy_values k b) }
  rw [dictSet_dictSet_self]

theorem setItem_setItem_comm (v : FuzzyVariable) {k k' : String}
    {a b : FuzzyValue} (hne : k ≠ k') (hk : dictHas v.fuzzy_values k = true)
    (hk' : dictHas v.fuzzy_values k' = true) :
    (v.setItem k a).setItem k' b = (v.setItem k' b).setItem k a := by
  unfold FuzzyVariable.setItem
  show ({ v with fuzzy_values := (dictSet (dictSet v.fuzzy_values k a) k' b) } :
      FuzzyVariable) =
    { v with fuzzy_values := (dictSet (dictSet v.fuzzy_values k' b) k a) }
  rw [dictSet_dictSet_comm v.fuzzy_values a b hne hk hk']

theorem applyRule_eq_ok_iff {env : List (String × FuzzyVariable)}
    {s : FuzzyVariable} {r : RuleFn} {s' : FuzzyVariable} :
    FuzzyLogic.applyRule env s r = .ok s' ↔
    ∃ cur w, dictGet s.fuzzy_values (r env).1 = some cur ∧
      npBroadcast2 max cur.degree (r env).2.degree = .ok w ∧
      s' = s.setItem (r env).1 ⟨w⟩ := by
  unfold FuzzyLogic.applyRule
  constructor
  · intro h
    rcases except_bind_eq_ok.mp h with ⟨cur, hcur, hrest⟩
    rcases except_map_eq_ok.mp hrest with ⟨newv, hor, hset⟩
    exact ⟨cur, newv.degree, is__eq_ok_iff.mp hcur, or_eq_ok_iff.mp hor, hset.symm⟩
  · rintro ⟨cur, w, hg, hb, hs⟩
    exact except_bind_eq_ok.mpr ⟨cur, is__eq_ok_iff.mpr hg,
      except_map_eq_ok.mpr ⟨⟨w⟩, or_eq_ok_iff.mpr hb, hs.symm⟩⟩

theorem applyRule_swap (env : List (String × FuzzyVariable)) (s : FuzzyVariable)
    (ra rb : RuleFn) (s₂ : FuzzyVariable)
    (h : (FuzzyLogic.applyRule env s ra >>=
      fun t => FuzzyLogic.applyRule env t rb) = .ok s₂) :
    (FuzzyLogic.applyRule env s rb >>=
      fun t => FuzzyLogic.applyRule env t ra) = .ok s₂ := by
  rcases except_bind_eq_ok.mp h with ⟨s₁, ha, hb'⟩
  rcases applyRule_eq_ok_iff.mp ha with ⟨curA, wA, hgA, hbA, hsA⟩
  rcases applyRule_eq_ok_iff.mp hb' with ⟨curB', wB, hgB, hbB, hsB⟩
  have hs1fv : s₁.fuzzy_values = dictSet s.fuzzy_values (ra env).1 ⟨wA⟩ := by
    rw [hsA]; rfl
  by_cases hcat : (rb env).1 = (ra env).1
  · -- both rules feed the same category
    have hcurB : curB' = ⟨wA⟩ := by
      have h0 := hgB
      rw [hs1fv, hcat, dictGet_dictSet_self] at h0
      exact (Option.some_injective _ h0).symm
    have htwo : (npBroadcast2 max curA.degree (ra env).2.degree).bind
        (fun x => npBroadcast2 max x (rb env).2.degree) = .ok wB := by
      rw [hbA]
      show npBroadcast2 max wA (rb env).2.degree = .ok wB
      rw [← hbB, hcurB]
    have hsw := bmax_swap htwo
    cases hw1 : npBroadcast2 max curA.degree (rb env).2.degree with
    | error e => rw [hw1] at hsw; cases hsw
    | ok w1 =>
        rw [hw1] at hsw
        replace hsw : npBroadcast2 max w1 (ra env).2.degree = .ok wB := hsw
        refine except_bind_eq_ok.mpr ⟨s.setItem (rb env).1 ⟨w1⟩,
          applyRule_eq_ok_iff.mpr ⟨curA, w1, by rw [hcat]; exact hgA, hw1, rfl⟩,
          applyRule_eq_ok_iff.mpr ⟨⟨w1⟩, wB, ?_, hsw, ?_⟩⟩
        · show dictGet (dictSet s.fuzzy_values (rb env).1 ⟨w1⟩) (ra env).1 = _
          rw [← hcat, dictGet_dictSet_self]
        · rw [hsB, hsA, hcat, setItem_setItem_self, setItem_setItem_self]
  · -- the rules feed different categories
    have hcurB : dictGet s.fuzzy_values (rb env).1 = some curB' := by
      rw [hs1fv, dictGet_dictSet_ne _ _ hcat] at hgB
      exact hgB
    refine except_bind_eq_ok.mpr ⟨s.setItem (rb env).1 ⟨wB⟩,
      applyRule_eq_ok_iff.mpr ⟨curB', wB, hcurB, hbB, rfl⟩,
      applyRule_eq_ok_iff.mpr ⟨curA, wA, ?_, hbA, ?_⟩⟩
    · show dictGet (dictSet s.fuzzy_values (rb env).1 ⟨wB⟩) (ra env).1 = _
      rw [dictGet_dictSet_ne _ _ (fun he => hcat he.symm)]
      exact hgA
    · rw [hsB, hsA]
      exact setItem_setItem_comm s (fun he => hcat he.symm)
        (dictHas_of_dictGet_eq_some hgA) (dictHas_of_dictGet_eq_some hcurB)

theorem foldlM_perm {l l' : List RuleFn} (hp : l.Perm l')
    (step : FuzzyVariable → RuleFn → Except Err FuzzyVariable)
    (hswap : ∀ s a b r, (step s a >>= fun t => step t b) = .ok r →
       (step s b >>= fun t => step t a) = .ok r)
    (s res : FuzzyVariable) (h : l.foldlM step s = .ok res) :
    l'.foldlM step s = .ok res := by
  induction hp generalizing s with
  | nil => exact h
  | cons x hp ih =>
      rw [List.foldlM_cons] at h ⊢
      rcases except_bind_eq_ok.mp h with ⟨t, hs, hrest⟩
      rw [hs, except_bind_ok]
      exact ih t hrest
  | swap x y l =>
      rw [List.foldlM_cons] at h ⊢
      rcases except_bind_eq_ok.mp h with ⟨t₁, h1, hrest⟩
      rw [List.foldlM_cons] at hrest
      rcases except_bind_eq_ok.mp hrest with ⟨t₂, h2, hfold⟩
      have htwo : (step s y >>= fun t => step t x) = .ok t₂ :=
        except_bind_eq_ok.mpr ⟨t₁, h1, h2⟩
      have hsw := hswap s y x t₂ htwo
      rcases except_bind_eq_ok.mp hsw with ⟨u, hu, huy⟩
      rw [hu, except_bind_ok, List.foldlM_cons, huy, except_bind_ok]
      exact hfold
  | trans hp1 hp2 ih1 ih2 => exact ih2 s (ih1 s h)

theorem run_rules_perm (fl : FuzzyLogic) (rules' : List RuleFn)
    (hp : fl.rules.Perm rules') (cv : List (String × ℚ)) (res : FuzzyVariable)
    (h : fl.run_rules cv = .ok res) :
    FuzzyLogic.run_rules ⟨fl.inputs, fl.output, rules'⟩ cv = .ok res := by
  unfold FuzzyLogic.run_rules at h ⊢
  rcases except_bind_eq_ok.mp h with ⟨u, hc, hrest⟩
  rcases except_bind_eq_ok.mp hrest with ⟨env, he, hfold⟩
  refine except_bind_eq_ok.mpr ⟨u, hc, ?_⟩
  refine except_bind_eq_ok.mpr ⟨env, he, ?_⟩
  exact foldlM_perm hp (FuzzyLogic.applyRule env)
    (fun s a b r => applyRule_swap env s a b r) fl.output.clone res hfold

/-- C6: permuting the rule list leaves the result of `predict` and of
`predict_categorical` unchanged on every run in which `run_rules`
succeeds — per-category aggregation is a running broadcast-max, which is
order-insensitive. -/
theorem C6_rule_order_irrelevant (fl : FuzzyLogic) (rules' : List RuleFn)
    (cv : List (String × ℚ)) (res : FuzzyVariable)
    (hp : fl.rules.Perm rules') (h : fl.run_rules cv = .ok res) :
    FuzzyLogic.predict ⟨fl.inputs, fl.output, rules'⟩ cv = fl.predict cv ∧
    FuzzyLogic.predict_categorical ⟨fl.inputs, fl.output, rules'⟩ cv =
      fl.predict_categorical cv := by
  have h' := run_rules_perm fl rules' hp cv res h
  constructor
  · unfold FuzzyLogic.predict
    rw [h, h']
  · unfold FuzzyLogic.predict_categorical
    rw [h, h']

/-- Witness for C6: swapping two constant rules does not change the
predictions. -/
theorem C6_rule_order_irrelevant_witness :
    (FuzzyLogic.rules ⟨[], outAB, [constRule "A" 1, constRule "B" 1]⟩).Perm
      [constRule "B" 1, constRule "A" 1] ∧
    FuzzyLogic.run_rules ⟨[], outAB, [constRule "A" 1, constRule "B" 1]⟩ [] =
      .ok ⟨"out", 0, 1, [("A", constMF 1), ("B", constMF 1)],
        [("A", ⟨[max 0 1]⟩), ("B", ⟨[max 0 1]⟩)]⟩ ∧
    (FuzzyLogic.predict ⟨[], outAB, [constRule "B" 1, constRule "A" 1]⟩ [] =
      FuzzyLogic.predict ⟨[], outAB, [constRule "A" 1, constRule "B" 1]⟩ [] ∧
    FuzzyLogic.predict_categorical ⟨[], outAB, [constRule "B" 1, constRule "A" 1]⟩ [] =
      FuzzyLogic.predict_categorical ⟨[], outAB, [constRule "A" 1, constRule "B" 1]⟩ []) :=
  ⟨List.Perm.swap (constRule "B" 1) (constRule "A" 1) [], rfl,
    C6_rule_order_irrelevant ⟨[], outAB, [constRule "A" 1, constRule "B" 1]⟩
      [constRule "B" 1, constRule "A" 1] [] _
      (List.Perm.swap (constRule "B" 1) (constRule "A" 1) []) rfl⟩

/-- Witness for C5 (amended) on concrete variables. -/
theorem C5_unfuzzified_access_witness :
    ((FuzzyVariable.create "t" 0 1).add_membership_function "A" (constMF 1) =
      .ok ⟨"t", 0, 1, [("A", constMF 1)], [("A", FuzzyValue.default)]⟩ ∧
      (FuzzyVariable.mk "t" 0 1 [("A", constMF 1)] [("A", FuzzyValue.default)]).is_ "A" =
        .ok FuzzyValue.default) ∧
    (dictGet (FuzzyVariable.create "u" 0 1).fuzzy_values "B" = none ∧
      (FuzzyVariable.create "u" 0 1).is_ "B" = .error (.unknownCategory "B" "u")) :=
  ⟨⟨rfl, (C5_unfuzzified_access (FuzzyVariable.create "t" 0 1) "A").1 (constMF 1) _ rfl⟩,
    ⟨rfl, (C5_unfuzzified_access (FuzzyVariable.create "u" 0 1) "B").2 rfl⟩⟩

/-! ### The predict pipeline -/

theorem npLinspace_length (lo hi : ℚ) (n : ℕ) : (npLinspace lo hi n).length = n := by
  unfold npLinspace
  rw [List.length_map, List.length_range]

theorem getD_map_of_lt (f : ℚ → ℚ) {l : List ℚ} {i : ℕ} (h : i < l.length) :
    (l.map f).getD i 0 = f (l.getD i 0) := by
  induction l generalizing i with
  | nil => simp at h
  | cons x t ih =>
      cases i with
      | zero => rfl
      | succ j =>
          simp only [List.map_cons, List.getD_cons_succ]
          exact ih (by simpa using h)

theorem getD_zipWith_of_lt (f : ℚ → ℚ → ℚ) {a b : List ℚ} {i : ℕ}
    (ha : i < a.length) (hb : i < b.length) :
    (List.zipWith f a b).getD i 0 = f (a.getD i 0) (b.getD i 0) := by
  induction a generalizing b i with
  | nil => simp at ha
  | cons x t ih =>
      cases b with
      | nil => simp at hb
      | cons y s =>
          cases i with
          | zero => rfl
          | succ j =>
              simp only [List.zipWith_cons_cons, List.getD_cons_succ]
              exact ih (by simpa using ha) (by simpa using hb)

theorem self_eq_range_map_getD {l : List ℚ} {n : ℕ} (h : l.length = n) :
    l = (List.range n).map (fun i => l.getD i 0) := by
  apply List.ext_getElem
  · simp [h]
  · intro i h1 h2
    simp only [List.getElem_map, List.getElem_range]
    rw [List.getD_eq_getElem l 0 (by rw [h]; simpa using h2)]

theorem dictGet_of_mem_nodup {α : Type} {l : List (String × α)}
    (hnd : (l.map Prod.fst).Nodup) {p : String × α} (hp : p ∈ l) :
    dictGet l p.1 = some p.2 := by
  induction l with
  | nil => cases hp
  | cons q t ih =>
      rw [dictGet_cons]
      rcases List.mem_cons.mp hp with rfl | hp'
      · rw [if_pos rfl]
      · have hne : ¬ q.1 = p.1 := fun he =>
          (List.nodup_cons.mp hnd).1 (he ▸ List.mem_map_of_mem Prod.fst hp')
        rw [if_neg hne]
        exact ih (List.nodup_cons.mp hnd).2 hp'

theorem and_broadcast_scalar (a b : FuzzyValue) (hb : b.degree.length = 1) :
    a.and b = .ok ⟨a.degree.map (fun x => min x (b.degree.headD 0))⟩ := by
  unfold FuzzyValue.and npBroadcast2
  by_cases h : a.degree.length = b.degree.length
  · rw [if_pos h]
    have ha : a.degree.length = 1 := h.trans hb
    rw [eq_headD_of_length_one ha, eq_headD_of_length_one hb]
    rfl
  · rw [if_neg h]
    by_cases ha : a.degree.length = 1
    · exact absurd (ha.trans hb.symm) h
    · rw [if_neg ha, if_pos hb]
      rfl

theorem or_same_length (a b : FuzzyValue) (h : a.degree.length = b.degree.length) :
    a.or b = .ok ⟨List.zipWith max a.degree b.degree⟩ := by
  unfold FuzzyValue.or
  rw [npBroadcast2_same_length max h]
  rfl

theorem applyRule_preserves (env : List (String × FuzzyVariable))
    {s s' : FuzzyVariable} {r : RuleFn}
    (h : FuzzyLogic.applyRule env s r = .ok s') :
    s'.fuzzy_values.map Prod.fst = s.fuzzy_values.map Prod.fst := by
  rcases applyRule_eq_ok_iff.mp h with ⟨cur, w, hg, -, hsv⟩
  have hhas := dictHas_of_dictGet_eq_some hg
  rw [hsv]
  exact dictSet_keys _ hhas

theorem foldlM_preserves_keys (env : List (String × FuzzyVariable))
    (rules : List RuleFn) (init res : FuzzyVariable)
    (h : rules.foldlM (FuzzyLogic.applyRule env) init = .ok res) :
    res.fuzzy_values.map Prod.fst = init.fuzzy_values.map Prod.fst := by
  induction rules generalizing init with
  | nil =>
      cases h
      rfl
  | cons r t ih =>
      rw [List.foldlM_cons] at h
      rcases except_bind_eq_ok.mp h with ⟨s₁, h1, hrest⟩
      rw [ih s₁ hrest, applyRule_preserves env h1]

theorem run_rules_ok_keys (fl : FuzzyLogic) (cv : List (String × ℚ))
    (res : FuzzyVariable) (h : fl.run_rules cv = .ok res) :
    res.fuzzy_values.map Prod.fst = fl.output.membership_functions.map Prod.fst := by
  unfold FuzzyLogic.run_rules at h
  rcases except_bind_eq_ok.mp h with ⟨u, -, hrest⟩
  rcases except_bind_eq_ok.mp hrest with ⟨env, -, hfold⟩
  rw [foldlM_preserves_keys env fl.rules fl.output.clone res hfold]
  unfold FuzzyVariable.clone
  simp

theorem keys_map_snd {β γ : Type} (l : List (String × β)) (g : String × β → γ) :
    (l.map (fun t => (t.1, g t))).map Prod.fst = l.map Prod.fst := by
  rw [List.map_map]
  apply List.map_congr_left
  intro t _
  rfl

theorem fuzzify_ok (v : FuzzyVariable) (xs : Degrees)
    (h : v.membership_functions ≠ []) :
    v.fuzzify xs = .ok { v.clone with
      fuzzy_values := v.membership_functions.map (fun p => (p.1, p.2 xs)) } := by
  unfold FuzzyVariable.fuzzify
  rw [if_neg (fun he => h (List.isEmpty_iff.mp he))]

theorem zip_keys_align {β γ : Type} :
    ∀ {l₁ : List (String × β)} {l₂ : List (String × γ)},
    l₁.map Prod.fst = l₂.map Prod.fst →
    ∀ {p : String × β} {q : String × γ}, (p, q) ∈ List.zip l₁ l₂ → p.1 = q.1 := by
  intro l₁
  induction l₁ with
  | nil =>
      intro l₂ h p q hm
      simp at hm
  | cons a t ih =>
      intro l₂ h p q hm
      cases l₂ with
      | nil => simp at hm
      | cons b s =>
          simp only [List.map_cons, List.cons.injEq] at h
          rw [List.zip_cons_cons] at hm
          rcases List.mem_cons.mp hm with hpq | hm'
          · rw [show p = a from congrArg Prod.fst hpq,
              show q = b from congrArg Prod.snd hpq]
            exact h.1
          · exact ih h.2 hm'

theorem aggBody_fold_eq (outF res : FuzzyVariable) (n : ℕ) :
    ∀ (es : List (String × FuzzyValue)) (ents : List (Degrees × ℚ)) (acc : Degrees),
    acc.length = n →
    List.Forall₂ (fun (p : String × FuzzyValue) (e : Degrees × ℚ) =>
      outF.is_ p.1 = .ok ⟨e.1⟩ ∧ res.is_ p.1 = .ok p.2 ∧
      p.2.degree = [e.2] ∧ e.1.length = n) es ents →
    es.foldlM (fun agg p => do
      let oc ← outF.is_ p.1
      let rc ← res.is_ p.1
      let inner ← oc.and rc
      agg.or inner) (⟨acc⟩ : FuzzyValue) = .ok ⟨foldAgg ents acc⟩ := by
  intro es
  induction es with
  | nil =>
      intro ents acc hacc hrel
      cases hrel
      rfl
  | cons p es ih =>
      intro ents acc hacc hrel
      cases hrel with
      | @cons _ e _ ents' he hrel' =>
          obtain ⟨ho, hr, hdeg, hlen⟩ := he
          rw [List.foldlM_cons]
          refine except_bind_eq_ok.mpr
            ⟨⟨List.zipWith max acc (e.1.map (fun x => min x e.2))⟩, ?_, ?_⟩
          · show (do
              let oc ← outF.is_ p.1
              let rc ← res.is_ p.1
              let inner ← oc.and rc
              FuzzyValue.or ⟨acc⟩ inner) = _
            rw [ho, except_bind_ok, hr, except_bind_ok]
            have hand := and_broadcast_scalar ⟨e.1⟩ p.2 (by rw [hdeg]; rfl)
            rw [hdeg] at hand
            simp only [List.headD_cons] at hand
            rw [hand, except_bind_ok]
            exact or_same_length ⟨acc⟩ ⟨e.1.map (fun x => min x e.2)⟩
              (by show acc.length = (e.1.map (fun x => min x e.2)).length
                  rw [hacc, List.length_map, hlen])
          · exact ih ents' _
              (by rw [List.length_zipWith, hacc, List.length_map, hlen, min_self]) hrel'

theorem foldAgg_eq (ents : List (Degrees × ℚ)) (n : ℕ) :
    ∀ acc : Degrees, acc.length = n → (∀ e ∈ ents, e.1.length = n) →
    foldAgg ents acc = (List.range n).map (fun i =>
      ents.foldl (fun m e => max m (min (e.1.getD i 0) e.2)) (acc.getD i 0)) := by
  induction ents with
  | nil =>
      intro acc hacc _
      exact self_eq_range_map_getD hacc
  | cons e t ih =>
      intro acc hacc hents
      have hlen_e : e.1.length = n := hents e (List.mem_cons_self e t)
      have hacc' : (List.zipWith max acc (e.1.map (fun x => min x e.2))).length = n := by
        rw [List.length_zipWith, hacc, List.length_map, hlen_e, min_self]
      show foldAgg t _ = _
      rw [ih _ hacc' (fun e' he' => hents e' (List.mem_cons_of_mem e he'))]
      apply List.map_congr_left
      intro i hi
      have hin : i < n := List.mem_range.mp hi
      show List.foldl _ ((List.zipWith max acc (e.1.map (fun x => min x e.2))).getD i 0) t =
        List.foldl _ (max (acc.getD i 0) (min (e.1.getD i 0) e.2)) t
      congr 1
      rw [getD_zipWith_of_lt max (by rw [hacc]; exact hin)
          (by rw [List.length_map, hlen_e]; exact hin),
        getD_map_of_lt _ (by rw [hlen_e]; exact hin)]

theorem foldAgg_zeros_eq_spec (ents : List (Degrees × ℚ)) (n : ℕ) (base : Degrees)
    (hbase : base.length = n) (hents : ∀ e ∈ ents, e.1.length = n) :
    foldAgg ents (base.map (fun _ => 0)) = specAggregate ents n := by
  rw [foldAgg_eq ents n _ (by rw [List.length_map]; exact hbase) hents]
  unfold specAggregate
  apply List.map_congr_left
  intro i hi
  congr 1
  rw [getD_map_of_lt (fun _ => 0) (by rw [hbase]; exact List.mem_range.mp hi)]

theorem specAggregate_length (ents : List (Degrees × ℚ)) (n : ℕ) :
    (specAggregate ents n).length = n := by
  unfold specAggregate
  rw [List.length_map, List.length_range]

set_option maxRecDepth 8000 in
/-- Symbolic execution of `predict` through the aggregation loop and the
centroid: the computed curve is exactly the claim-side `specAggregate`, and
the final unchecked division yields the NaN marker when the curve sums to
zero. -/
theorem predict_eval (fl : FuzzyLogic) (cv : List (String × ℚ)) (res : FuzzyVariable)
    (hrr : fl.run_rules cv = .ok res)
    (hmf : fl.output.membership_functions ≠ [])
    (hnodup : (fl.output.membership_functions.map Prod.fst).Nodup)
    (hstr : ∀ p ∈ res.fuzzy_values, p.2.degree.length = 1)
    (hcur : ∀ p ∈ fl.output.membership_functions,
      (p.2 (npLinspace fl.output.min_val fl.output.max_val 1000)).degree.length = 1000) :
    fl.predict cv = .ok
      (if (specAggregate (aggEntries fl res) 1000).sum = 0 then none
       else some ((List.zipWith (· * ·)
          (npLinspace fl.output.min_val fl.output.max_val 1000)
          (specAggregate (aggEntries fl res) 1000)).sum /
        (specAggregate (aggEntries fl res) 1000).sum)) := by
  have hunil : (npLinspace fl.output.min_val fl.output.max_val 1000).length = 1000 :=
    npLinspace_length _ _ _
  have hfz := fuzzify_ok fl.output
    (npLinspace fl.output.min_val fl.output.max_val 1000) hmf
  have hkeys : res.fuzzy_values.map Prod.fst =
      fl.output.membership_functions.map Prod.fst := run_rules_ok_keys fl cv res hrr
  have hreskeys_nodup : (res.fuzzy_values.map Prod.fst).Nodup := by
    rw [hkeys]; exact hnodup
  have hlen_eq : res.fuzzy_values.length = fl.output.membership_functions.length := by
    have h := congrArg List.length hkeys
    simpa using h
  have houtkeys_nodup : ((fl.output.membership_functions.map
      (fun p => (p.1, p.2 (npLinspace fl.output.min_val fl.output.max_val 1000)))).map
      Prod.fst).Nodup := by
    rw [keys_map_snd]
    exact hnodup
  have hrel0 : List.Forall₂ (fun (p : String × FuzzyValue) (q : String × MembershipFunction) =>
      FuzzyVariable.is_ { fl.output.clone with
        fuzzy_values := fl.output.membership_functions.map
          (fun t => (t.1, t.2 (npLinspace fl.output.min_val fl.output.max_val 1000))) } p.1 =
        .ok ⟨((fun t => ((Prod.snd t) (npLinspace fl.output.min_val fl.output.max_val 1000)).degree) q)⟩ ∧
      res.is_ p.1 = .ok p.2 ∧
      p.2.degree = [((dictGet res.fuzzy_values q.1).getD FuzzyValue.default).degree.headD 0] ∧
      ((Prod.snd q) (npLinspace fl.output.min_val fl.output.max_val 1000)).degree.length = 1000)
      res.fuzzy_values fl.output.membership_functions := by
    rw [List.forall₂_iff_zip]
    refine ⟨hlen_eq, ?_⟩
    intro p q hm
    have hpq : p.1 = q.1 := zip_keys_align hkeys hm
    have hmemp : p ∈ res.fuzzy_values := (List.of_mem_zip hm).1
    have hmemq : q ∈ fl.output.membership_functions := (List.of_mem_zip hm).2
    have hgetres : dictGet res.fuzzy_values p.1 = some p.2 :=
      dictGet_of_mem_nodup hreskeys_nodup hmemp
    refine ⟨?_, is__eq_ok_iff.mpr hgetres, ?_, hcur q hmemq⟩
    · apply is__eq_ok_iff.mpr
      show dictGet (fl.output.membership_functions.map
        (fun t => (t.1, t.2 (npLinspace fl.output.min_val fl.output.max_val 1000)))) p.1 = _
      rw [hpq]
      exact dictGet_of_mem_nodup houtkeys_nodup
        (List.mem_map_of_mem
          (fun t => (t.1, t.2 (npLinspace fl.output.min_val fl.output.max_val 1000))) hmemq)
    · rw [← hpq, hgetres]
      show p.2.degree = [p.2.degree.headD 0]
      exact eq_headD_of_length_one (hstr p hmemp)
  have hrel : List.Forall₂ (fun (p : String × FuzzyValue) (e : Degrees × ℚ) =>
      FuzzyVariable.is_ { fl.output.clone with
        fuzzy_values := fl.output.membership_functions.map
          (fun t => (t.1, t.2 (npLinspace fl.output.min_val fl.output.max_val 1000))) } p.1 =
        .ok ⟨e.1⟩ ∧
      res.is_ p.1 = .ok p.2 ∧ p.2.degree = [e.2] ∧ e.1.length = 1000)
      res.fuzzy_values (aggEntries fl res) := by
    unfold aggEntries
    rw [List.forall₂_map_right_iff]
    exact hrel0
  have hentslen : ∀ e ∈ aggEntries fl res, e.1.length = 1000 := by
    intro e he
    rcases List.mem_map.mp he with ⟨q, hq, rfl⟩
    exact hcur q hq
  have hagg : FuzzyLogic.aggregate
      { fl.output.clone with
        fuzzy_values := fl.output.membership_functions.map
          (fun t => (t.1, t.2 (npLinspace fl.output.min_val fl.output.max_val 1000))) }
      res
      ⟨(npLinspace fl.output.min_val fl.output.max_val 1000).map (fun _ => 0)⟩ =
      .ok ⟨specAggregate (aggEntries fl res) 1000⟩ := by
    unfold FuzzyLogic.aggregate
    rw [aggBody_fold_eq _ res 1000 res.fuzzy_values (aggEntries fl res) _
      (by rw [List.length_map]; exact hunil) hrel]
    rw [foldAgg_zeros_eq_spec (aggEntries fl res) 1000 _ hunil hentslen]
  have hw : npBroadcast2 (· * ·) (npLinspace fl.output.min_val fl.output.max_val 1000)
      (specAggregate (aggEntries fl res) 1000) =
      .ok (List.zipWith (· * ·) (npLinspace fl.output.min_val fl.output.max_val 1000)
        (specAggregate (aggEntries fl res) 1000)) :=
    npBroadcast2_same_length _ (by rw [hunil, specAggregate_length])
  unfold FuzzyLogic.predict
  refine except_bind_eq_ok.mpr ⟨res, hrr, ?_⟩
  refine except_bind_eq_ok.mpr ⟨_, hfz, ?_⟩
  refine except_bind_eq_ok.mpr ⟨_, hagg, ?_⟩
  refine except_bind_eq_ok.mpr ⟨_, hw, ?_⟩
  rfl

/-- C1: when every input is supplied, every rule's category is registered
(both packaged in `run_rules` succeeding), rule strengths are scalars, the
sampled curves have the universe's length, and the aggregated curve has a
nonzero sum, `predict` returns
`Σ (universe[i] * aggregate[i]) / Σ (aggregate[i])` for the 1000-point
linearly spaced universe and the pointwise max-min aggregate. -/
theorem C1_predict_centroid (fl : FuzzyLogic) (cv : List (String × ℚ))
    (res : FuzzyVariable)
    (hrr : fl.run_rules cv = .ok res)
    (hmf : fl.output.membership_functions ≠ [])
    (hnodup : (fl.output.membership_functions.map Prod.fst).Nodup)
    (hstr : ∀ p ∈ res.fuzzy_values, p.2.degree.length = 1)
    (hcur : ∀ p ∈ fl.output.membership_functions,
      (p.2 (npLinspace fl.output.min_val fl.output.max_val 1000)).degree.length = 1000)
    (hden : (specAggregate (aggEntries fl res) 1000).sum ≠ 0) :
    fl.predict cv = .ok (some ((List.zipWith (· * ·)
        (npLinspace fl.output.min_val fl.output.max_val 1000)
        (specAggregate (aggEntries fl res) 1000)).sum /
      (specAggregate (aggEntries fl res) 1000).sum)) := by
  rw [predict_eval fl cv res hrr hmf hnodup hstr hcur, if_neg hden]

/-- C4 (amended): the zero-denominator centroid case is left unguarded by the
code; `predict` performs the division anyway and the NaN (modelled `none`)
silently leaks out as a successful return value — no error, no midpoint
fallback. -/
theorem C4_zero_denominator_nan (fl : FuzzyLogic) (cv : List (String × ℚ))
    (res : FuzzyVariable)
    (hrr : fl.run_rules cv = .ok res)
    (hmf : fl.output.membership_functions ≠ [])
    (hnodup : (fl.output.membership_functions.map Prod.fst).Nodup)
    (hstr : ∀ p ∈ res.fuzzy_values, p.2.degree.length = 1)
    (hcur : ∀ p ∈ fl.output.membership_functions,
      (p.2 (npLinspace fl.output.min_val fl.output.max_val 1000)).degree.length = 1000)
    (hden : (specAggregate (aggEntries fl res) 1000).sum = 0) :
    fl.predict cv = .ok none := by
  rw [predict_eval fl cv res hrr hmf hnodup hstr hcur, if_pos hden]

/-! ### Concrete instantiations of the predict pipeline -/

theorem specAggregate_single_const (base : Degrees) (n : ℕ) (hlen : base.length = n)
    (c s : ℚ) :
    specAggregate [(base.map (fun _ => c), s)] n =
      List.replicate n (max 0 (min c s)) := by
  unfold specAggregate
  rw [List.eq_replicate_iff]
  refine ⟨by rw [List.length_map, List.length_range], ?_⟩
  intro b hb
  rcases List.mem_map.mp hb with ⟨i, hi, rfl⟩
  show max 0 (min ((base.map (fun _ => c)).getD i 0) s) = max 0 (min c s)
  rw [getD_map_of_lt (fun _ => c) (by rw [hlen]; exact List.mem_range.mp hi)]

set_option maxRecDepth 20000 in
theorem aggEntries_const (s : ℚ) :
    aggEntries ⟨[], outA, [constRule "A" s]⟩
        ⟨"out", 0, 1, [("A", constMF 1)], [("A", ⟨[max 0 s]⟩)]⟩ =
      [((npLinspace 0 1 1000).map (fun _ => (1 : ℚ)), max 0 s)] := rfl

set_option maxRecDepth 20000 in
theorem specAggregate_const (s : ℚ) :
    specAggregate (aggEntries ⟨[], outA, [constRule "A" s]⟩
        ⟨"out", 0, 1, [("A", constMF 1)], [("A", ⟨[max 0 s]⟩)]⟩) 1000 =
      List.replicate 1000 (max 0 (min 1 (max 0 s))) := by
  rw [aggEntries_const s]
  exact specAggregate_single_const (npLinspace 0 1 1000) 1000
    (npLinspace_length 0 1 1000) 1 (max 0 s)

theorem outA_mfs_ne : outA.membership_functions ≠ [] := by
  intro h
  cases h

theorem outA_keys_nodup : (outA.membership_functions.map Prod.fst).Nodup := by
  show (["A"] : List String).Nodup
  simp

theorem outA_curves_length (fl : FuzzyLogic) (h : fl.output = outA) :
    ∀ p ∈ fl.output.membership_functions,
      (p.2 (npLinspace fl.output.min_val fl.output.max_val 1000)).degree.length = 1000 := by
  rw [h]
  intro p hp
  rcases List.mem_singleton.mp hp with rfl
  show ((npLinspace outA.min_val outA.max_val 1000).map (fun _ => (1 : ℚ))).length = 1000
  rw [List.length_map, npLinspace_length]

set_option maxRecDepth 20000 in
/-- Counterexample to C4 as stated: on an engine whose only rule fires with
strength 0, the aggregate sums to zero, yet `predict` succeeds and hands back
the NaN marker — there is no explicit error, no deliberate policy, no
midpoint fallback. -/
theorem C4_counterexample :
    FuzzyLogic.predict ⟨[], outA, [constRule "A" 0]⟩ [] = .ok none := by
  rw [predict_eval ⟨[], outA, [constRule "A" 0]⟩ []
    ⟨"out", 0, 1, [("A", constMF 1)], [("A", ⟨[max 0 0]⟩)]⟩
    rfl outA_mfs_ne outA_keys_nodup (by decide)
    (outA_curves_length ⟨[], outA, [constRule "A" 0]⟩ rfl)]
  rw [if_pos]
  rw [specAggregate_const 0, max_self, min_eq_right (by norm_num : (0:ℚ) ≤ 1),
    max_self, List.sum_replicate, smul_zero]

set_option maxRecDepth 20000 in
/-- Witness for C4 (amended) at the same zero-strength engine. -/
theorem C4_zero_denominator_nan_witness :
    (FuzzyLogic.run_rules ⟨[], outA, [constRule "A" 0]⟩ [] =
      .ok ⟨"out", 0, 1, [("A", constMF 1)], [("A", ⟨[max 0 0]⟩)]⟩ ∧
      (specAggregate (aggEntries ⟨[], outA, [constRule "A" 0]⟩
        ⟨"out", 0, 1, [("A", constMF 1)], [("A", ⟨[max 0 0]⟩)]⟩) 1000).sum = 0) ∧
    FuzzyLogic.predict ⟨[], outA, [constRule "A" 0]⟩ [] = .ok none := by
  have hden : (specAggregate (aggEntries ⟨[], outA, [constRule "A" 0]⟩
      ⟨"out", 0, 1, [("A", constMF 1)], [("A", ⟨[max 0 0]⟩)]⟩) 1000).sum = 0 := by
    rw [specAggregate_const 0, max_self, min_eq_right (by norm_num : (0:ℚ) ≤ 1),
      max_self, List.sum_replicate, smul_zero]
  exact ⟨⟨rfl, hden⟩,
    C4_zero_denominator_nan ⟨[], outA, [constRule "A" 0]⟩ []
      ⟨"out", 0, 1, [("A", constMF 1)], [("A", ⟨[max 0 0]⟩)]⟩
      rfl outA_mfs_ne outA_keys_nodup (by decide)
      (outA_curves_length ⟨[], outA, [constRule "A" 0]⟩ rfl) hden⟩

set_option maxRecDepth 20000 in
/-- Witness for C1 at an engine whose single rule fires with strength 1. -/
theorem C1_predict_centroid_witness :
    (FuzzyLogic.run_rules ⟨[], outA, [constRule "A" 1]⟩ [] =
      .ok ⟨"out", 0, 1, [("A", constMF 1)], [("A", ⟨[max 0 1]⟩)]⟩ ∧
      (specAggregate (aggEntries ⟨[], outA, [constRule "A" 1]⟩
        ⟨"out", 0, 1, [("A", constMF 1)], [("A", ⟨[max 0 1]⟩)]⟩) 1000).sum ≠ 0) ∧
    FuzzyLogic.predict ⟨[], outA, [constRule "A" 1]⟩ [] =
      .ok (some ((List.zipWith (· * ·) (npLinspace 0 1 1000)
          (specAggregate (aggEntries ⟨[], outA, [constRule "A" 1]⟩
            ⟨"out", 0, 1, [("A", constMF 1)], [("A", ⟨[max 0 1]⟩)]⟩) 1000)).sum /
        (specAggregate (aggEntries ⟨[], outA, [constRule "A" 1]⟩
          ⟨"out", 0, 1, [("A", constMF 1)], [("A", ⟨[max 0 1]⟩)]⟩) 1000).sum)) := by
  have hden : (specAggregate (aggEntries ⟨[], outA, [constRule "A" 1]⟩
      ⟨"out", 0, 1, [("A", constMF 1)], [("A", ⟨[max 0 1]⟩)]⟩) 1000).sum ≠ 0 := by
    rw [specAggregate_const 1, max_eq_right (by norm_num : (0:ℚ) ≤ 1), min_self,
      max_eq_right (by norm_num : (0:ℚ) ≤ 1), List.sum_replicate]
    norm_num
  exact ⟨⟨rfl, hden⟩,
    C1_predict_centroid ⟨[], outA, [constRule "A" 1]⟩ []
      ⟨"out", 0, 1, [("A", constMF 1)], [("A", ⟨[max 0 1]⟩)]⟩
      rfl outA_mfs_ne outA_keys_nodup (by decide)
      (outA_curves_length ⟨[], outA, [constRule "A" 1]⟩ rfl) hden⟩

end FuzzyPy
